import Mathlib

/-!
Verification of `simple_shell.cpp`, the command orchestration core.

A shallow embedding of `simple_shell.cpp`.  A `std::string` is a list of
characters, `string::npos` is `none`, and the operating system (process
creation, `waitpid`, `open`) is a parameter of the functions that call it.
-/

namespace SimpleShell

/-- A `std::string`. -/
abbrev Str := List Char

/-- The double-quote character. -/
def dquote : Char := Char.ofNat 34

/-- The single-quote character. -/
def squote : Char := Char.ofNat 39

/-- The character set `" \t"` handed to `find_first_not_of` and `find_last_not_of`. -/
def blanks : Str := [' ', '\t']

/-- The erase-remove idiom `s.erase(remove(s.begin(), s.end(), c), s.end())`. -/
def eraseRemove (c : Char) (s : Str) : Str :=
  s.filter (fun x => x != c)

/-- The call `s.find_first_not_of(set)`: the least index whose character is not in
`set`, `none` standing for `npos`. -/
def find_first_not_of (set : Str) : Str → Option Nat
  | [] => none
  | c :: cs =>
    if set.contains c then (find_first_not_of set cs).map (· + 1) else some 0

/-- The call `s.find_last_not_of(set)`: the greatest index whose character is not in
`set`, `none` standing for `npos`. -/
def find_last_not_of (set : Str) : Str → Option Nat
  | [] => none
  | c :: cs =>
    match find_last_not_of set cs with
    | some i => some (i + 1)
    | none => if set.contains c then none else some 0

/-- The call `s.substr(pos, n)` for `pos ≤ s.size()`. -/
def substr (s : Str) (pos n : Nat) : Str :=
  (s.drop pos).take n

/-- The function `cleanToken` (lines 25-34).  When `start` is `npos` the result is
empty.  Otherwise `end` is an index too; in the branch where it would be `npos` the
count `end - start + 1` wraps to a value past the end of the string and `substr`
returns the whole rest. -/
def cleanToken (s : Str) : Str :=
  let s1 := eraseRemove dquote s
  let s2 := eraseRemove squote s1
  match find_first_not_of blanks s2 with
  | none => []
  | some start =>
    match find_last_not_of blanks s2 with
    | some e => substr s2 start (e - start + 1)
    | none => s2.drop start

/-- The call `s.find(delim, prev)` continued on the suffix `l` of `s` that starts at
index `i`: the least index at or after `i` where `delim` occurs. -/
def findAt (delim : Str) : Str → Nat → Option Nat
  | [], i => if delim.isPrefixOf [] then some i else none
  | c :: cs, i =>
    if delim.isPrefixOf (c :: cs) then some i else findAt delim cs (i + 1)

/-- The call `s.find(delim, prev)`, `none` standing for `npos` (also the answer when
`prev` is past the end). -/
def find (s delim : Str) (prev : Nat) : Option Nat :=
  if prev ≤ s.length then findAt delim (s.drop prev) prev else none

/-- The `while` loop of `split` (lines 44-48) together with the final `push_back`.
Each unit of fuel pays for one evaluation of the loop condition; `none` means the
fuel ran out before the loop ended. -/
def splitLoop (s delim : Str) : Nat → Nat → List Str → Option (List Str)
  | 0, _, _ => none
  | fuel + 1, prev, tokens =>
    match find s delim prev with
    | some pos =>
      splitLoop s delim fuel (pos + delim.length)
        (tokens ++ [cleanToken (substr s prev (pos - prev))])
    | none => some (tokens ++ [cleanToken (s.drop prev)])

/-- The function `split` (lines 40-50), run with `s.length + 1` units of fuel, which
is enough for every non-empty delimiter.  With the empty delimiter the loop never
ends and the value is `none`. -/
def split (s delim : Str) : Option (List Str) :=
  splitLoop s delim (s.length + 1) 0 []

/-- The function `buildArgs` (lines 56-63): a `char*` is `some` of the string it
points into and `nullptr` is `none`. -/
def buildArgs (args : List Str) : List (Option Str) :=
  (args.filter (fun a => !a.isEmpty)).map some ++ [none]

/-- The flags of the two kinds of `open` call in `executeBase`, both with mode 0644:
`O_WRONLY | O_CREAT | O_TRUNC` and `O_WRONLY | O_CREAT | O_APPEND`. -/
inductive OpenFlags where
  | trunc
  | append
  deriving DecidableEq, Repr

/-- The predicate `isspace` of the classic locale, which ends a word read by
`ss >> token`. -/
def isspace (c : Char) : Bool :=
  c == ' ' || c == '\t' || c == '\n' || c == '\r' || c == Char.ofNat 11 || c == Char.ofNat 12

/-- The words of a stream, `cur` being the word under construction. -/
def wordsAux : Str → Str → List Str
  | [], cur => if cur.isEmpty then [] else [cur]
  | c :: cs, cur =>
    if isspace c then
      if cur.isEmpty then wordsAux cs [] else cur :: wordsAux cs []
    else wordsAux cs (cur ++ [c])

/-- The stream `stringstream ss(cmd)` as the list of words that successive
extractions `ss >> token` yield; an extraction from the empty list is one that fails. -/
def words (cmd : Str) : List Str :=
  wordsAux cmd []

/-- The local variables of `executeBase` that the scanning loop updates. -/
structure Scan where
  args : List Str
  out_fd : Int
  err_fd : Int
  deriving DecidableEq, Repr

/-- The `while (ss >> token)` loop of `executeBase` (lines 86-106).  `openf path flags`
is the descriptor `open` returns, `-1` on failure.  In each redirection branch the
inner `ss >> token` takes the next word; when there is none the extraction fails,
`token` keeps the operator text, and the loop ends at the next test. -/
def scanLoop (openf : Str → OpenFlags → Int) : List Str → Scan → Scan
  | [], st => st
  | token :: ss, st =>
    if token = ['>'] ∨ token = ['1', '>'] then
      match ss with
      | [] => { st with out_fd := openf token OpenFlags.trunc }
      | path :: ss1 => scanLoop openf ss1 { st with out_fd := openf path OpenFlags.trunc }
    else if token = ['>', '>'] ∨ token = ['1', '>', '>'] then
      match ss with
      | [] => { st with out_fd := openf token OpenFlags.append }
      | path :: ss1 => scanLoop openf ss1 { st with out_fd := openf path OpenFlags.append }
    else if token = ['2', '>'] then
      match ss with
      | [] => { st with err_fd := openf token OpenFlags.trunc }
      | path :: ss1 => scanLoop openf ss1 { st with err_fd := openf path OpenFlags.trunc }
    else if token = ['2', '>', '>'] then
      match ss with
      | [] => { st with err_fd := openf token OpenFlags.append }
      | path :: ss1 => scanLoop openf ss1 { st with err_fd := openf path OpenFlags.append }
    else
      scanLoop openf ss { st with args := st.args ++ [cleanToken token] }

/-- What `executeBase` has set up when it reaches `execvp`: the descriptor rebound
onto standard output and onto standard error by `dup2` (`none` when the guard
`fd != -1` fails) and the vector `cargs`, whose first entry is the program. -/
structure Launch where
  out_fd : Int
  err_fd : Int
  stdoutTo : Option Int
  stderrTo : Option Int
  cargs : List (Option Str)
  deriving DecidableEq, Repr

/-- The function `executeBase` (lines 78-119) up to the call of `execvp`. -/
def executeBase (openf : Str → OpenFlags → Int) (cmd : Str) : Launch :=
  let st := scanLoop openf (words cmd) { args := [], out_fd := -1, err_fd := -1 }
  { out_fd := st.out_fd
    err_fd := st.err_fd
    stdoutTo := if st.out_fd ≠ -1 then some st.out_fd else none
    stderrTo := if st.err_fd ≠ -1 then some st.err_fd else none
    cargs := buildArgs st.args }

/-- A call that `main` makes to one of the two runners. -/
inductive Dispatch where
  | single (cmd : Str)
  | pipe (left right : Str)
  deriving DecidableEq, Repr

/-- The operating system as the runners see it: `wait d w` is the status word that
the last `waitpid` of the runner stores when the children of dispatch `d` are run
in world `w`, with the world afterwards. -/
structure OS (σ : Type) where
  wait : Dispatch → σ → Nat × σ

/-- The macro `WEXITSTATUS` of `<sys/wait.h>`: bits 8-15 of the status word. -/
def WEXITSTATUS (status : Nat) : Nat :=
  (status / 256) % 256

/-- The macro `WIFEXITED` of `<sys/wait.h>`: the termination-signal bits 0-6 are zero. -/
def WIFEXITED (status : Nat) : Bool :=
  status % 128 == 0

/-- The function `execSingle` (lines 137-147) as seen by its caller. -/
def execSingle {σ : Type} (os : OS σ) (cmd : Str) (w : σ) : Nat × σ :=
  let r := os.wait (Dispatch.single cmd) w
  (WEXITSTATUS r.1, r.2)

/-- The function `execPipe` (lines 162-190) as seen by its caller. -/
def execPipe {σ : Type} (os : OS σ) (left right : Str) (w : σ) : Nat × σ :=
  let r := os.wait (Dispatch.pipe left right) w
  (if WIFEXITED r.1 then WEXITSTATUS r.1 else 1, r.2)

/-- The call `part.find(c)` for a character. -/
def findChar (c : Char) : Str → Option Nat
  | [] => none
  | x :: xs => if x = c then some 0 else (findChar c xs).map (· + 1)

/-- One runner call together with the status it returned. -/
structure Event where
  call : Dispatch
  status : Nat
  deriving DecidableEq, Repr

/-- The runner call that lines 247-256 make for one unit. -/
def callOf (part : Str) : Dispatch :=
  match findChar '|' part with
  | some pos => Dispatch.pipe (substr part 0 pos) (part.drop (pos + 1))
  | none => Dispatch.single part

/-- Lines 245-256: the dispatch of one unit, with the status assigned to `status`. -/
def dispatch {σ : Type} (os : OS σ) (part : Str) (w : σ) : Event × σ :=
  match findChar '|' part with
  | some pos =>
    let r := execPipe os (substr part 0 pos) (part.drop (pos + 1)) w
    ({ call := Dispatch.pipe (substr part 0 pos) (part.drop (pos + 1)), status := r.1 }, r.2)
  | none =>
    let r := execSingle os part w
    ({ call := Dispatch.single part, status := r.1 }, r.2)

/-- The loop over `andParts` (lines 243-260); `size` is `andParts.size()`.  The
result is the list of runner calls made, in order, and the world afterwards. -/
def runParts {σ : Type} (os : OS σ) (size : Nat) : List Str → σ → List Event × σ
  | [], w => ([], w)
  | part :: rest, w =>
    let r := dispatch os part w
    if r.1.status ≠ 0 ∧ size > 1 then ([r.1], r.2)
    else
      let q := runParts os size rest r.2
      (r.1 :: q.1, q.2)

/-- The delimiter `"&&"`. -/
def andDelim : Str := ['&', '&']

/-- The delimiter `";"`. -/
def semiDelim : Str := [';']

/-- The body of the loop over `commands` (lines 240-260) for one group. -/
def runGroup {σ : Type} (os : OS σ) (cmd : Str) (w : σ) : Option (List Event × σ) :=
  match split cmd andDelim with
  | none => none
  | some andParts => some (runParts os andParts.length andParts w)

/-- The loop over `commands` (lines 238-261). -/
def runCommands {σ : Type} (os : OS σ) : List Str → σ → Option (List Event × σ)
  | [], w => some ([], w)
  | cmd :: rest, w =>
    match runGroup os cmd w with
    | none => none
    | some r =>
      match runCommands os rest r.2 with
      | none => none
      | some q => some (r.1 ++ q.1, q.2)

/-- Lines 236-261: what `main` does with one line that is neither `exit` nor empty. -/
def runLine {σ : Type} (os : OS σ) (input : Str) (w : σ) : Option (List Event × σ) :=
  match split input semiDelim with
  | none => none
  | some commands => runCommands os commands w

/-- The read loop of `main` (lines 226-262) on the lines that `getline` delivers;
the end of the list is the failure of `getline`. -/
def main {σ : Type} (os : OS σ) : List Str → σ → Option (List Event × σ)
  | [], w => some ([], w)
  | input :: rest, w =>
    if input = ['e', 'x', 'i', 't'] then some ([], w)
    else if input.isEmpty then main os rest w
    else
      match runLine os input w with
      | none => none
      | some r =>
        match main os rest r.2 with
        | none => none
        | some q => some (r.1 ++ q.1, q.2)


/-- Membership in `" \t"`. -/
def isBlank (c : Char) : Bool :=
  c == ' ' || c == '\t'

/-- Being one of the two quote characters. -/
def isQuote (c : Char) : Bool :=
  c == dquote || c == squote

/-- The Token Normalizer as the specification words it: delete every quote
character, then remove the maximal leading and trailing runs of spaces and tabs. -/
def cleanTokenSpec (s : Str) : Str :=
  ((s.filter (fun c => !isQuote c)).dropWhile isBlank).rdropWhile isBlank

/-- The number of occurrences of `d` met when scanning `l` from the left one
character at a time and resuming just past each match; one unit of fuel per step. -/
def countMatches (d : Str) : Nat → Str → Nat
  | 0, _ => 0
  | fuel + 1, l =>
    if d.isPrefixOf l then 1 + countMatches d fuel (l.drop d.length)
    else
      match l with
      | [] => 0
      | _ :: t => countMatches d fuel t

/-- The number of non-overlapping, leftmost-first occurrences of `d` in `s`. -/
def occurrences (d s : Str) : Nat :=
  countMatches d (s.length + 1) s

/-- The raw pieces `ps` are cut at the leftmost occurrences of `d`: in the text that
begins with a piece other than the last, `d` does not occur at any offset inside that
piece, so the piece ends at the first occurrence of `d` at or after its start; and
`d` does not occur in the last piece. -/
def LeftmostCut (d : Str) : List Str → Prop
  | [] => False
  | [p] => ∀ j, ¬ d <+: p.drop j
  | p :: q :: ps =>
    (∀ j, j < p.length → ¬ d <+: (p ++ d ++ d.intercalate (q :: ps)).drop j) ∧
      LeftmostCut d (q :: ps)

/-- A token that is one of the four standard-output operators. -/
def isOutOp (t : Str) : Bool :=
  decide (t = ['>'] ∨ t = ['1', '>'] ∨ t = ['>', '>'] ∨ t = ['1', '>', '>'])

/-- A token that is one of the two standard-error operators. -/
def isErrOp (t : Str) : Bool :=
  decide (t = ['2', '>'] ∨ t = ['2', '>', '>'])

/-- A token that is one of the six redirection operator literals. -/
def isRedirOp (t : Str) : Bool :=
  isOutOp t || isErrOp t

/-- The flags an operator stands for: truncate for `>`, `1>`, `2>`, append for the
doubled forms. -/
def flagsOf (t : Str) : OpenFlags :=
  if t = ['>'] ∨ t = ['1', '>'] ∨ t = ['2', '>'] then OpenFlags.trunc else OpenFlags.append

/-- The argument tokens as the specification words them: reading the tokens left to
right, an operator token is not an argument and neither is the token right after it. -/
def argTokens : List Str → List Str
  | [] => []
  | t :: rest =>
    if isRedirOp t then
      match rest with
      | [] => []
      | _ :: rest1 => argTokens rest1
    else t :: argTokens rest

/-- The redirections met reading the tokens left to right: each operator token with
the token right after it (`none` when the operator is the last token). -/
def redirs : List Str → List (Str × Option Str)
  | [] => []
  | t :: rest =>
    if isRedirOp t then
      match rest with
      | [] => [(t, none)]
      | path :: rest1 => (t, some path) :: redirs rest1
    else redirs rest

/-- The last standard-output redirection of a token list. -/
def lastOut (toks : List Str) : Option (Str × Option Str) :=
  ((redirs toks).filter (fun r => isOutOp r.1)).getLast?

/-- The last standard-error redirection of a token list. -/
def lastErr (toks : List Str) : Option (Str × Option Str) :=
  ((redirs toks).filter (fun r => isErrOp r.1)).getLast?

/-- The effect of one redirection branch of the scanning loop on the state, `path`
being the value of `token` after the inner extraction. -/
def redirect (openf : Str → OpenFlags → Int) (op path : Str) (st : Scan) : Scan :=
  if isOutOp op then { st with out_fd := openf path (flagsOf op) }
  else if isErrOp op then { st with err_fd := openf path (flagsOf op) }
  else st

/-- The descriptor a list of redirections of one stream leaves in its variable,
starting from `fd`: the one opened for the last redirection. -/
def resolve (openf : Str → OpenFlags → Int) (fd : Int) (rs : List (Str × Option Str)) : Int :=
  match rs.getLast? with
  | none => fd
  | some (op, some path) => openf path (flagsOf op)
  | some (op, none) => openf op (flagsOf op)

/-- An `open` that always succeeds with descriptor 3, for concrete runs. -/
def openThree : Str → OpenFlags → Int :=
  fun _ _ => 3

/-- The sequences of runner calls of the groups of a line, each group taken alone:
every group is run by `runGroup` in the world that the groups before it have left. -/
def groupTraces {σ : Type} (os : OS σ) : List Str → σ → Option (List (List Event))
  | [], _ => some []
  | cmd :: rest, w =>
    match runGroup os cmd w with
    | none => none
    | some r =>
      match groupTraces os rest r.2 with
      | none => none
      | some ts => some (r.1 :: ts)

/-- An operating system in which every child ends with the same status word. -/
def osConst (status : Nat) : OS Unit :=
  { wait := fun _ w => (status, w) }

/-- The line `exit`. -/
def exitWord : Str := ['e', 'x', 'i', 't']

/-- The read loop as the specification words it, for lines among which none is the
exit keyword: an empty line does nothing and every other line is run by `runLine`. -/
def processLines {σ : Type} (os : OS σ) : List Str → σ → Option (List Event × σ)
  | [], w => some ([], w)
  | input :: rest, w =>
    if input.isEmpty then processLines os rest w
    else
      match runLine os input w with
      | none => none
      | some r =>
        match processLines os rest r.2 with
        | none => none
        | some q => some (r.1 ++ q.1, q.2)

/-- The runner call that a unit stands for, made in world `w`: the status the runner
returns and the world it leaves. -/
def runUnit {σ : Type} (os : OS σ) (part : Str) (w : σ) : Nat × σ :=
  match callOf part with
  | Dispatch.single cmd => execSingle os cmd w
  | Dispatch.pipe left right => execPipe os left right w

/-- The runner calls of all the units of a chain, made one after the other whatever
they return, each with the status its runner returns in the world left by the units
before it. -/
def allEvents {σ : Type} (os : OS σ) : List Str → σ → List Event
  | [], _ => []
  | u :: us, w =>
    { call := callOf u, status := (runUnit os u w).1 } :: allEvents os us (runUnit os u w).2

/-- The world left by the runner calls of the given units, made one after the other. -/
def worldAfter {σ : Type} (os : OS σ) : List Str → σ → σ
  | [], w => w
  | u :: us, w => worldAfter os us (runUnit os u w).2

/-- The index `k`, counted from 1, of the first event whose status is non-zero, and
the number of events when there is none. -/
def firstFailure : List Event → Nat
  | [] => 0
  | e :: es => if e.status ≠ 0 then 1 else 1 + firstFailure es

/-! ## Lemmas on `cleanToken` -/

theorem blanks_contains (c : Char) : blanks.contains c = isBlank c := by
  unfold blanks isBlank
  simp only [List.contains, List.elem]
  cases (c == ' ') <;> cases (c == '\t') <;> rfl

theorem eraseRemove_both (s : Str) :
    eraseRemove squote (eraseRemove dquote s) = s.filter (fun c => !isQuote c) := by
  unfold eraseRemove isQuote
  rw [List.filter_filter]
  congr 1
  funext c
  cases h1 : (c == dquote) <;> cases h2 : (c == squote) <;> simp [bne, h1, h2]

theorem ffno_none_iff (s : Str) :
    find_first_not_of blanks s = none ↔ ∀ c ∈ s, isBlank c = true := by
  induction s with
  | nil => simp [find_first_not_of]
  | cons c cs ih =>
    simp only [find_first_not_of, blanks_contains]
    by_cases h : isBlank c = true
    · simp [h, ih]
    · simp [h]

theorem ffno_some (s : Str) (i : Nat) (h : find_first_not_of blanks s = some i) :
    s.drop i = s.dropWhile isBlank ∧ i ≤ s.length ∧ (∀ c ∈ s.take i, isBlank c = true) ∧
      s.dropWhile isBlank ≠ [] := by
  induction s generalizing i with
  | nil => simp [find_first_not_of] at h
  | cons c cs ih =>
    simp only [find_first_not_of, blanks_contains] at h
    by_cases hc : isBlank c = true
    · simp only [hc, if_true, Option.map_eq_some'] at h
      obtain ⟨j, hj, rfl⟩ := h
      obtain ⟨h1, h2, h3, h4⟩ := ih j hj
      refine ⟨?_, ?_, ?_, ?_⟩
      · simpa [List.dropWhile_cons, hc] using h1
      · simpa using h2
      · intro x hx
        simp only [List.take_succ_cons, List.mem_cons] at hx
        rcases hx with rfl | hx
        · exact hc
        · exact h3 x hx
      · simpa [List.dropWhile_cons, hc] using h4
    · simp only [hc] at h
      simp only [Bool.false_eq_true, if_false, Option.some.injEq] at h
      subst h
      simp [List.dropWhile_cons, hc]

theorem rdropWhile_cons_of_ne_nil (p : Char → Bool) (c : Char) (cs : Str)
    (h : cs.rdropWhile p ≠ []) : (c :: cs).rdropWhile p = c :: cs.rdropWhile p := by
  induction cs using List.reverseRecOn with
  | nil => simp [List.rdropWhile_nil] at h
  | append_singleton l x ih =>
    by_cases hx : p x = true
    · rw [List.rdropWhile_concat_pos _ _ _ hx] at h
      rw [← List.cons_append, List.rdropWhile_concat_pos _ _ _ hx,
        List.rdropWhile_concat_pos _ _ _ hx]
      exact ih h
    · rw [← List.cons_append, List.rdropWhile_concat_neg _ _ _ hx,
        List.rdropWhile_concat_neg _ _ _ hx]
      rfl

theorem flno_none_iff (s : Str) :
    find_last_not_of blanks s = none ↔ ∀ c ∈ s, isBlank c = true := by
  induction s with
  | nil => simp [find_last_not_of]
  | cons c cs ih =>
    simp only [find_last_not_of, blanks_contains]
    cases hcs : find_last_not_of blanks cs with
    | none =>
      have := ih.mp hcs
      by_cases h : isBlank c = true
      · simpa [h] using this
      · simp [h]
    | some j =>
      have : ¬ ∀ c ∈ cs, isBlank c = true := fun hh => by
        rw [ih.mpr hh] at hcs
        cases hcs
      simp only [false_iff, reduceCtorEq]
      intro hh
      exact this (fun x hx => hh x (List.mem_cons_of_mem _ hx))

theorem flno_some (s : Str) (e : Nat) (h : find_last_not_of blanks s = some e) :
    s.take (e + 1) = s.rdropWhile isBlank := by
  induction s generalizing e with
  | nil => simp [find_last_not_of] at h
  | cons c cs ih =>
    simp only [find_last_not_of, blanks_contains] at h
    cases hcs : find_last_not_of blanks cs with
    | none =>
      rw [hcs] at h
      have hall := (flno_none_iff cs).mp hcs
      by_cases hc : isBlank c = true
      · simp [hc] at h
      · simp only [hc, Bool.false_eq_true, if_false, Option.some.injEq] at h
        subst h
        have h0 : cs.rdropWhile isBlank = [] := List.rdropWhile_eq_nil_iff.mpr hall
        have : (c :: cs).rdropWhile isBlank = [c] := by
          have hrev : (c :: cs).rdropWhile isBlank
              = (List.dropWhile isBlank (cs.reverse ++ [c])).reverse := by
            simp [List.rdropWhile]
          rw [hrev]
          have hd : ∀ (l : Str), (∀ x ∈ l, isBlank x = true) →
              List.dropWhile isBlank (l ++ [c]) = [c] := by
            intro l hl
            induction l with
            | nil => simp [List.dropWhile_cons, hc]
            | cons a l ihl =>
              have ha : isBlank a = true := hl a (List.mem_cons_self _ _)
              simp only [List.cons_append, List.dropWhile_cons, ha, if_true]
              exact ihl (fun x hx => hl x (List.mem_cons_of_mem _ hx))
          rw [hd cs.reverse (fun x hx => hall x (List.mem_reverse.mp hx))]
          rfl
        simp [this]
    | some j =>
      rw [hcs] at h
      simp only [Option.some.injEq] at h
      subst h
      have hne : cs.rdropWhile isBlank ≠ [] := by
        intro h0
        have := (flno_none_iff cs).mpr (List.rdropWhile_eq_nil_iff.mp h0)
        rw [this] at hcs
        cases hcs
      rw [rdropWhile_cons_of_ne_nil _ _ _ hne, ← ih j hcs]
      rfl

theorem flno_append_blank (a u : Str) (ha : ∀ c ∈ a, isBlank c = true) :
    find_last_not_of blanks (a ++ u) = (find_last_not_of blanks u).map (· + a.length) := by
  induction a with
  | nil => simp
  | cons c cs ih =>
    have hc : isBlank c = true := ha c (List.mem_cons_self _ _)
    have := ih (fun x hx => ha x (List.mem_cons_of_mem _ hx))
    simp only [List.cons_append, find_last_not_of, blanks_contains, hc]
    have this2 : find_last_not_of blanks (cs.append u)
        = Option.map (· + cs.length) (find_last_not_of blanks u) := this
    rw [this2]
    cases find_last_not_of blanks u <;> simp [Nat.add_assoc]

theorem cleanToken_eq_spec (s : Str) : cleanToken s = cleanTokenSpec s := by
  unfold cleanToken cleanTokenSpec
  simp only [eraseRemove_both]
  generalize s.filter (fun c => !isQuote c) = t
  cases hf : find_first_not_of blanks t with
  | none =>
    have hall := (ffno_none_iff t).mp hf
    have : t.dropWhile isBlank = [] := by
      rw [List.dropWhile_eq_nil_iff]
      exact hall
    simp [this, List.rdropWhile_nil]
  | some i =>
    obtain ⟨h1, h2, h3, h4⟩ := ffno_some t i hf
    have hsplit : t = t.take i ++ t.drop i := (List.take_append_drop i t).symm
    have hlen : (t.take i).length = i := by simp [h2]
    have hl := flno_append_blank (t.take i) (t.drop i) h3
    rw [← hsplit, hlen] at hl
    cases hu : find_last_not_of blanks (t.drop i) with
    | none =>
      exfalso
      have := (flno_none_iff _).mp hu
      rw [h1] at this
      have h5 := List.dropWhile_eq_nil_iff.mpr this
      rw [List.dropWhile_idempotent] at h5
      exact h4 h5
    | some j =>
      rw [hu] at hl
      simp only [Option.map_some'] at hl
      simp only [hl, substr]
      rw [← h1, ← flno_some _ j hu]
      congr 1
      omega

theorem rdropWhile_decomp (p : Char → Bool) (l : Str) :
    ∃ post, (∀ x ∈ post, p x = true) ∧ l = l.rdropWhile p ++ post := by
  induction l using List.reverseRecOn with
  | nil => exact ⟨[], by simp, by simp [List.rdropWhile_nil]⟩
  | append_singleton l x ih =>
    by_cases hx : p x = true
    · obtain ⟨post, h1, h2⟩ := ih
      refine ⟨post ++ [x], ?_, ?_⟩
      · intro y hy
        rcases List.mem_append.mp hy with hy | hy
        · exact h1 y hy
        · simp only [List.mem_singleton] at hy
          rw [hy]
          exact hx
      · rw [List.rdropWhile_concat_pos _ _ _ hx, ← List.append_assoc, ← h2]
    · exact ⟨[], by simp, by rw [List.rdropWhile_concat_neg _ _ _ hx]; simp⟩

theorem cleanTokenSpec_decomp (s : Str) :
    ∃ pre post, (∀ c ∈ pre, isBlank c = true) ∧ (∀ c ∈ post, isBlank c = true) ∧
      s.filter (fun c => !isQuote c) = pre ++ cleanTokenSpec s ++ post := by
  obtain ⟨post, h1, h2⟩ :=
    rdropWhile_decomp isBlank ((s.filter (fun c => !isQuote c)).dropWhile isBlank)
  refine ⟨(s.filter (fun c => !isQuote c)).takeWhile isBlank, post, ?_, h1, ?_⟩
  · intro c hc
    exact List.mem_takeWhile_imp hc
  · unfold cleanTokenSpec
    rw [List.append_assoc, ← h2, List.takeWhile_append_dropWhile]

theorem cleanTokenSpec_noquote (s : Str) (c : Char) (hc : c ∈ cleanTokenSpec s) :
    isQuote c = false := by
  obtain ⟨pre, post, _, _, h⟩ := cleanTokenSpec_decomp s
  have hm : c ∈ s.filter (fun c => !isQuote c) := by
    rw [h]
    simp [hc]
  simpa using (List.mem_filter.mp hm).2

theorem cleanTokenSpec_head (s : Str) (c : Char) (hc : (cleanTokenSpec s).head? = some c) :
    isBlank c = false := by
  obtain ⟨post, _, h2⟩ :=
    rdropWhile_decomp isBlank ((s.filter (fun c => !isQuote c)).dropWhile isBlank)
  have hn := List.head?_dropWhile_not isBlank (s.filter (fun c => !isQuote c))
  unfold cleanTokenSpec at hc
  rw [h2] at hn
  cases hr : List.rdropWhile isBlank (List.dropWhile isBlank (s.filter (fun c => !isQuote c))) with
  | nil => rw [hr] at hc; simp at hc
  | cons a r =>
    rw [hr] at hc hn
    simp only [List.head?_cons, Option.some.injEq] at hc
    subst hc
    simpa using hn

theorem cleanTokenSpec_last (s : Str) (c : Char) (hc : (cleanTokenSpec s).getLast? = some c) :
    isBlank c = false := by
  unfold cleanTokenSpec at hc
  have hne : List.rdropWhile isBlank
      (List.dropWhile isBlank (s.filter (fun c => !isQuote c))) ≠ [] := by
    intro h0
    rw [h0] at hc
    simp at hc
  have := List.rdropWhile_last_not isBlank _ hne
  rw [List.getLast?_eq_getLast _ hne] at hc
  simp only [Option.some.injEq] at hc
  rw [hc] at this
  simpa using this

theorem dropWhile_eq_self_of_head (p : Char → Bool) (l : Str)
    (h : ∀ c, l.head? = some c → p c = false) : l.dropWhile p = l := by
  cases l with
  | nil => rfl
  | cons a r =>
    have := h a rfl
    simp [List.dropWhile_cons, this]

theorem cleanTokenSpec_idem (s : Str) : cleanTokenSpec (cleanTokenSpec s) = cleanTokenSpec s := by
  have hf : (cleanTokenSpec s).filter (fun c => !isQuote c) = cleanTokenSpec s := by
    rw [List.filter_eq_self]
    intro c hc
    simp [cleanTokenSpec_noquote s c hc]
  have hd : (cleanTokenSpec s).dropWhile isBlank = cleanTokenSpec s :=
    dropWhile_eq_self_of_head _ _ (cleanTokenSpec_head s)
  have hr : (cleanTokenSpec s).rdropWhile isBlank = cleanTokenSpec s := by
    unfold cleanTokenSpec
    exact List.rdropWhile_idempotent _ _
  show List.rdropWhile isBlank
    (List.dropWhile isBlank ((cleanTokenSpec s).filter (fun c => !isQuote c))) = cleanTokenSpec s
  rw [hf, hd, hr]

theorem isBlank_iff (c : Char) : isBlank c = true ↔ c = ' ' ∨ c = '\t' := by
  simp [isBlank]

theorem isQuote_iff (c : Char) : isQuote c = true ↔ c = dquote ∨ c = squote := by
  simp [isQuote]

/-! ## Claims on `cleanToken` -/

/-- C4: for every string `s`, `cleanToken s` is the string obtained by deleting every
double and single quote of `s` and then removing the maximal leading and trailing runs
of spaces and tabs.  So the result has no quote character, neither starts nor ends with
a space or tab, is the quote-free text of `s` up to a run of blanks before and after it
(all other characters kept in order), is empty when `s` consists of spaces and tabs only,
and the input he"llo gives hello. -/
theorem cleanToken_reference (s : Str) :
    cleanToken s = cleanTokenSpec s
    ∧ (∀ c ∈ cleanToken s, c ≠ dquote ∧ c ≠ squote)
    ∧ (∀ c, (cleanToken s).head? = some c → c ≠ ' ' ∧ c ≠ '\t')
    ∧ (∀ c, (cleanToken s).getLast? = some c → c ≠ ' ' ∧ c ≠ '\t')
    ∧ (∃ pre post, (∀ c ∈ pre, c = ' ' ∨ c = '\t') ∧ (∀ c ∈ post, c = ' ' ∨ c = '\t') ∧
        s.filter (fun c => c ≠ dquote ∧ c ≠ squote) = pre ++ cleanToken s ++ post)
    ∧ ((∀ c ∈ s, c = ' ' ∨ c = '\t') → cleanToken s = [])
    ∧ cleanToken ['h', 'e', dquote, 'l', 'l', 'o'] = ['h', 'e', 'l', 'l', 'o'] := by
  have hq : ∀ c : Char, isQuote c = false ↔ (c ≠ dquote ∧ c ≠ squote) := by
    intro c
    rw [← Bool.not_eq_true, isQuote_iff]
    tauto
  have hb : ∀ c : Char, isBlank c = false ↔ (c ≠ ' ' ∧ c ≠ '\t') := by
    intro c
    rw [← Bool.not_eq_true, isBlank_iff]
    tauto
  refine ⟨cleanToken_eq_spec s, ?_, ?_, ?_, ?_, ?_, by decide⟩
  · intro c hc
    rw [cleanToken_eq_spec] at hc
    exact (hq c).mp (cleanTokenSpec_noquote s c hc)
  · intro c hc
    rw [cleanToken_eq_spec] at hc
    exact (hb c).mp (cleanTokenSpec_head s c hc)
  · intro c hc
    rw [cleanToken_eq_spec] at hc
    exact (hb c).mp (cleanTokenSpec_last s c hc)
  · obtain ⟨pre, post, h1, h2, h3⟩ := cleanTokenSpec_decomp s
    refine ⟨pre, post, fun c hc => (isBlank_iff c).mp (h1 c hc),
      fun c hc => (isBlank_iff c).mp (h2 c hc), ?_⟩
    rw [cleanToken_eq_spec, ← h3]
    apply List.filter_congr
    intro c _
    cases hc : isQuote c
    · simpa using (hq c).mp hc
    · have := (isQuote_iff c).mp hc
      simp only [Bool.not_true, decide_eq_false_iff_not, not_and_or, not_not]
      exact this
  · intro h
    rw [cleanToken_eq_spec]
    unfold cleanTokenSpec
    have : (s.filter (fun c => !isQuote c)).dropWhile isBlank = [] := by
      rw [List.dropWhile_eq_nil_iff]
      intro c hc
      exact (isBlank_iff c).mpr (h c (List.mem_filter.mp hc).1)
    rw [this, List.rdropWhile_nil]

/-- C5: `cleanToken` is idempotent: cleaning a cleaned string changes nothing. -/
theorem cleanToken_idempotent (s : Str) : cleanToken (cleanToken s) = cleanToken s := by
  rw [cleanToken_eq_spec (cleanToken s), cleanToken_eq_spec s]
  exact cleanTokenSpec_idem s

/-! ## Lemmas on `find` and `split` -/

theorem intercalate_single (d p : Str) : d.intercalate [p] = p := by
  simp [List.intercalate, List.intersperse]

theorem intercalate_cons_cons (d p q : Str) (ps : List Str) :
    d.intercalate (p :: q :: ps) = p ++ d ++ d.intercalate (q :: ps) := by
  simp [List.intercalate, List.intersperse]

theorem findAt_some (d : Str) : ∀ (l : Str) (i pos : Nat), findAt d l i = some pos →
    ∃ p t, l = p ++ d ++ t ∧ pos = i + p.length ∧ ∀ j, j < p.length → ¬ d <+: l.drop j := by
  intro l
  induction l with
  | nil =>
    intro i pos h
    simp only [findAt] at h
    split at h
    · rename_i hp
      have hd : d = [] := by
        have := List.isPrefixOf_iff_prefix.mp hp
        simpa using this
      simp only [Option.some.injEq] at h
      exact ⟨[], [], by simp [hd], by simp [h], by simp⟩
    · cases h
  | cons c cs ih =>
    intro i pos h
    simp only [findAt] at h
    split at h
    · rename_i hp
      obtain ⟨t, ht⟩ := List.isPrefixOf_iff_prefix.mp hp
      simp only [Option.some.injEq] at h
      exact ⟨[], t, by simp [ht], by simp [h], by simp⟩
    · rename_i hp
      obtain ⟨p, t, h1, h2, h3⟩ := ih (i + 1) pos h
      refine ⟨c :: p, t, by simp [h1], by simp [h2]; omega, ?_⟩
      intro j hj
      cases j with
      | zero =>
        intro hpre
        exact hp (List.isPrefixOf_iff_prefix.mpr hpre)
      | succ k =>
        simp only [List.drop_succ_cons]
        exact h3 k (by simpa using hj)

theorem findAt_none (d : Str) : ∀ (l : Str) (i : Nat), findAt d l i = none →
    ∀ j, ¬ d <+: l.drop j := by
  intro l
  induction l with
  | nil =>
    intro i h j
    simp only [findAt] at h
    split at h
    · cases h
    · rename_i hp
      intro hpre
      apply hp
      rw [List.drop_nil] at hpre
      exact List.isPrefixOf_iff_prefix.mpr hpre
  | cons c cs ih =>
    intro i h j
    simp only [findAt] at h
    split at h
    · cases h
    · rename_i hp
      cases j with
      | zero =>
        intro hpre
        exact hp (List.isPrefixOf_iff_prefix.mpr hpre)
      | succ k =>
        simp only [List.drop_succ_cons]
        exact ih (i + 1) h k

theorem countMatches_fuel (d : Str) (hd : d ≠ []) : ∀ (f1 f2 : Nat) (l : Str),
    l.length < f1 → l.length < f2 → countMatches d f1 l = countMatches d f2 l := by
  intro f1
  induction f1 with
  | zero => intro f2 l h1; omega
  | succ f1 ih =>
    intro f2 l h1 h2
    cases f2 with
    | zero => omega
    | succ f2 =>
      simp only [countMatches]
      split
      · rename_i hp
        obtain ⟨t, ht⟩ := List.isPrefixOf_iff_prefix.mp hp
        have hdl : 0 < d.length := List.length_pos.mpr hd
        have hl : l.length = d.length + t.length := by rw [← ht]; simp
        have hdrop : (l.drop d.length).length = t.length := by rw [← ht]; simp
        rw [ih f2 (l.drop d.length) (by omega) (by omega)]
      · cases l with
        | nil => rfl
        | cons c t =>
          simp only [List.length_cons] at h1 h2
          exact ih f2 t (by omega) (by omega)

theorem countMatches_none (d : Str) : ∀ (fuel : Nat) (l : Str),
    (∀ j, ¬ d <+: l.drop j) → countMatches d fuel l = 0 := by
  intro fuel
  induction fuel with
  | zero => intro l _; rfl
  | succ f ih =>
    intro l h
    simp only [countMatches]
    split
    · rename_i hp
      exact absurd (List.isPrefixOf_iff_prefix.mp hp) (h 0)
    · cases l with
      | nil => rfl
      | cons c t => exact ih t (fun j => by simpa using h (j + 1))

theorem countMatches_cut (d t : Str) (hd : d ≠ []) : ∀ (p : Str) (fuel : Nat),
    (p ++ d ++ t).length < fuel →
    (∀ j, j < p.length → ¬ d <+: (p ++ d ++ t).drop j) →
    countMatches d fuel (p ++ d ++ t) = countMatches d (t.length + 1) t + 1 := by
  have hdl : 0 < d.length := List.length_pos.mpr hd
  intro p
  induction p with
  | nil =>
    intro fuel hf _
    cases fuel with
    | zero => omega
    | succ f =>
      simp only [List.nil_append, List.length_append] at hf
      have hp : d.isPrefixOf ([] ++ d ++ t) = true :=
        List.isPrefixOf_iff_prefix.mpr ⟨t, by simp⟩
      have hdr : ([] ++ d ++ t).drop d.length = t := by simp
      have e1 : countMatches d (f + 1) ([] ++ d ++ t) = 1 + countMatches d f t := by
        conv_lhs => unfold countMatches
        simp only [hp, if_true, hdr]
      rw [e1, countMatches_fuel d hd f (t.length + 1) t (by omega) (by omega)]
      omega
  | cons c p ih =>
    intro fuel hf h
    cases fuel with
    | zero => omega
    | succ f =>
      have hnp : ¬ d.isPrefixOf (c :: (p ++ d ++ t)) = true := fun hp =>
        h 0 (by simp) (by simpa using List.isPrefixOf_iff_prefix.mp hp)
      have e1 : countMatches d (f + 1) (c :: (p ++ d ++ t))
          = countMatches d f (p ++ d ++ t) := by
        conv_lhs => unfold countMatches
        rw [if_neg hnp]
      simp only [List.cons_append]
      rw [e1]
      apply ih f
      · simp only [List.cons_append, List.length_cons] at hf
        omega
      · intro j hj
        have := h (j + 1) (by simpa using hj)
        simpa using this

theorem splitLoop_spec (s d : Str) (hd : d ≠ []) :
    ∀ (fuel prev : Nat) (acc : List Str), prev ≤ s.length → s.length - prev < fuel →
      ∃ ps, ps ≠ [] ∧ d.intercalate ps = s.drop prev ∧
        splitLoop s d fuel prev acc = some (acc ++ ps.map cleanToken) ∧
        LeftmostCut d ps ∧ ps.length = occurrences d (s.drop prev) + 1 := by
  have hdl : 0 < d.length := List.length_pos.mpr hd
  intro fuel
  induction fuel with
  | zero => intro prev acc _ h; omega
  | succ f ih =>
    intro prev acc hprev hfuel
    simp only [splitLoop, find, hprev, if_true]
    cases hfind : findAt d (s.drop prev) prev with
    | none =>
      have hno := findAt_none d _ _ hfind
      refine ⟨[s.drop prev], by simp, intercalate_single _ _, by simp, hno, ?_⟩
      simp [occurrences, countMatches_none d _ _ hno]
    | some pos =>
      obtain ⟨p, t, h1, h2, h3⟩ := findAt_some d _ _ _ hfind
      have hlen : s.length - prev = p.length + d.length + t.length := by
        have := congrArg List.length h1
        simp only [List.length_drop, List.length_append] at this
        omega
      have hprev2 : pos + d.length ≤ s.length := by omega
      have hdrop2 : s.drop (pos + d.length) = t := by
        have : s.drop (pos + d.length) = (s.drop prev).drop (p.length + d.length) := by
          rw [List.drop_drop]
          congr 1
          omega
        rw [this, h1]
        have h4 : (p ++ d ++ t).drop (p.length + d.length) = t := by
          have : p.length + d.length = (p ++ d).length := by simp
          rw [this, List.drop_left]
        exact h4
      have hsub : substr s prev (pos - prev) = p := by
        unfold substr
        rw [h1]
        have : pos - prev = p.length := by omega
        rw [this, List.append_assoc, List.take_left]
      obtain ⟨ps, hne, hint, hrun, hcut, hcount⟩ :=
        ih (pos + d.length) (acc ++ [cleanToken (substr s prev (pos - prev))]) hprev2
          (by omega)
      rw [hdrop2] at hint hcount
      cases ps with
      | nil => exact absurd rfl hne
      | cons q qs =>
        refine ⟨p :: q :: qs, by simp, ?_, ?_, ?_, ?_⟩
        · rw [intercalate_cons_cons, hint, h1]
        · show splitLoop s d f (pos + d.length)
            (acc ++ [cleanToken (substr s prev (pos - prev))]) = _
          rw [hrun, hsub]
          simp
        · refine ⟨?_, hcut⟩
          rw [hint, ← h1]
          exact h3
        · rw [h1]
          simp only [List.length_cons] at hcount ⊢
          rw [hcount]
          unfold occurrences
          rw [countMatches_cut d t hd p _ (by omega) (by rw [← h1]; exact h3)]

theorem split_spec (s d : Str) (hd : d ≠ []) :
    ∃ ps, ps ≠ [] ∧ d.intercalate ps = s ∧ split s d = some (ps.map cleanToken) ∧
      LeftmostCut d ps ∧ ps.length = occurrences d s + 1 := by
  obtain ⟨ps, h1, h2, h3, h4, h5⟩ :=
    splitLoop_spec s d hd (s.length + 1) 0 [] (Nat.zero_le _) (by omega)
  exact ⟨ps, h1, by simpa using h2, by simpa [split] using h3, h4, by simpa using h5⟩

theorem not_infix_of_no_occurrence (d p : Str) (h : ∀ j, ¬ d <+: p.drop j) : ¬ d <:+: p := by
  rintro ⟨a, b, hab⟩
  apply h a.length
  refine ⟨b, ?_⟩
  rw [← hab, List.append_assoc, List.drop_left]

theorem leftmostCut_pieces (d : Str) (hd : d ≠ []) : ∀ (ps : List Str), LeftmostCut d ps →
    ∀ p ∈ ps, ∀ j, ¬ d <+: p.drop j := by
  intro ps
  induction ps with
  | nil => intro h; exact absurd h (by simp [LeftmostCut])
  | cons p qs ih =>
    cases qs with
    | nil =>
      intro h q hq j
      simp only [List.mem_singleton] at hq
      subst hq
      exact h j
    | cons q qs =>
      intro h r hr j
      obtain ⟨h1, h2⟩ := h
      rcases List.mem_cons.mp hr with rfl | hr
      · by_cases hj : j < r.length
        · intro hpre
          apply h1 j hj
          obtain ⟨t, ht⟩ := hpre
          refine ⟨t ++ d ++ d.intercalate (q :: qs), ?_⟩
          rw [List.append_assoc r, List.drop_append_of_le_length (Nat.le_of_lt hj), ← ht]
          simp
        · rw [List.drop_eq_nil_of_le (by omega)]
          intro hpre
          exact hd (List.prefix_nil.mp hpre)
      · exact ih h2 r hr j

theorem leftmostCut_last (d : Str) : ∀ (ps : List Str) (hne : ps ≠ []), LeftmostCut d ps →
    ∀ j, ¬ d <+: (ps.getLast hne).drop j := by
  intro ps
  induction ps with
  | nil => intro hne; exact absurd rfl hne
  | cons p qs ih =>
    cases qs with
    | nil => intro _ h j; exact h j
    | cons q qs =>
      intro _ h j
      rw [List.getLast_cons (by simp)]
      exact ih (by simp) h.2 j

theorem intercalate_ends_with_last (d : Str) : ∀ (ps : List Str) (hne : ps ≠ []),
    ∃ front, d.intercalate ps = front ++ ps.getLast hne := by
  intro ps
  induction ps with
  | nil => intro hne; exact absurd rfl hne
  | cons p qs ih =>
    cases qs with
    | nil => intro _; exact ⟨[], by simp [intercalate_single]⟩
    | cons q qs =>
      intro _
      obtain ⟨front, hf⟩ := ih (by simp)
      refine ⟨p ++ d ++ front, ?_⟩
      rw [intercalate_cons_cons, List.getLast_cons_cons, hf]
      simp

theorem mem_intercalate_of_mem (d : Str) : ∀ (ps : List Str), ∀ p ∈ ps, ∀ c ∈ p,
    c ∈ d.intercalate ps := by
  intro ps
  induction ps with
  | nil => intro p hp; cases hp
  | cons p qs ih =>
    cases qs with
    | nil =>
      intro r hr c hc
      simp only [List.mem_singleton] at hr
      subst hr
      rw [intercalate_single]
      exact hc
    | cons q qs =>
      intro r hr c hc
      rw [intercalate_cons_cons]
      rcases List.mem_cons.mp hr with rfl | hr
      · simp [hc]
      · have := ih r hr c hc
        simp [this]

theorem cleanToken_mem (s : Str) (c : Char) (hc : c ∈ cleanToken s) : c ∈ s := by
  rw [cleanToken_eq_spec] at hc
  obtain ⟨pre, post, _, _, h⟩ := cleanTokenSpec_decomp s
  have : c ∈ s.filter (fun c => !isQuote c) := by
    rw [h]
    simp [hc]
  exact (List.mem_filter.mp this).1

theorem cleanToken_infix_of_noquote (s : Str) (h : ∀ c ∈ s, isQuote c = false) :
    cleanToken s <:+: s := by
  rw [cleanToken_eq_spec]
  obtain ⟨pre, post, _, _, hdec⟩ := cleanTokenSpec_decomp s
  have hf : s.filter (fun c => !isQuote c) = s := by
    rw [List.filter_eq_self]
    intro c hc
    simp [h c hc]
  rw [hf] at hdec
  exact ⟨pre, post, hdec.symm⟩

theorem split_and_noquote (s : Str) (hs : ∀ c ∈ s, isQuote c = false) :
    ∃ segs, split s andDelim = some segs ∧ ∀ seg ∈ segs, ¬ andDelim <:+: seg := by
  obtain ⟨ps, _, h2, h3, h4, _⟩ := split_spec s andDelim (by decide)
  refine ⟨ps.map cleanToken, h3, ?_⟩
  intro seg hseg
  obtain ⟨p, hp, rfl⟩ := List.mem_map.mp hseg
  have hraw := not_infix_of_no_occurrence andDelim p
    (leftmostCut_pieces andDelim (by decide) ps h4 p hp)
  have hq : ∀ c ∈ p, isQuote c = false := by
    intro c hc
    apply hs c
    rw [← h2]
    exact mem_intercalate_of_mem andDelim ps p hp c hc
  intro hin
  exact hraw (List.IsInfix.trans hin (cleanToken_infix_of_noquote p hq))

/-! ## Claims on `split` -/

/-- C6: for every string `s` and non-empty delimiter `d` there are raw pieces
`p1..pn`, `n ≥ 1`, whose join with `d` is exactly `s` and whose images under
`cleanToken` are the result of `split s d`: joining the result back with `d`
reproduces `s` up to the normalization of each piece. -/
theorem split_join_round_trip (s d : Str) (hd : d ≠ []) :
    ∃ ps : List Str, 1 ≤ ps.length ∧ d.intercalate ps = s ∧
      split s d = some (ps.map cleanToken) := by
  obtain ⟨ps, h1, h2, h3, _, _⟩ := split_spec s d hd
  exact ⟨ps, List.length_pos.mpr h1, h2, h3⟩

theorem split_join_round_trip_witness :
    andDelim ≠ [] ∧ ∃ ps : List Str, 1 ≤ ps.length ∧
      andDelim.intercalate ps = ['a', ' ', '&', '&', ' ', 'b'] ∧
      split ['a', ' ', '&', '&', ' ', 'b'] andDelim = some (ps.map cleanToken) :=
  ⟨by decide, split_join_round_trip ['a', ' ', '&', '&', ' ', 'b'] andDelim (by decide)⟩

/-- C7, the clause that fails: the string a&&& ends with an occurrence of the
delimiter && and yet the final element of the split is not empty, because the scan
has already consumed the first two ampersands as a match. -/
theorem split_trailing_delim_counterexample :
    andDelim <:+ ['a', '&', '&', '&'] ∧
      split ['a', '&', '&', '&'] andDelim = some [['a'], ['&']] ∧
      ([['a'], ['&']] : List Str).getLast? ≠ some [] :=
  ⟨⟨['a', '&'], by decide⟩, by decide, by decide⟩

/-- C7 as amended: for every `s` and non-empty `d`, `split s d` has `k + 1` elements,
`k` the number of occurrences of `d` found scanning left to right and resuming past
each match; its elements are the `cleanToken` images of raw pieces that join with `d`
to `s`, every piece but the last ending at the first occurrence of `d` at or after
its start and the last one free of `d`.  If `d` does not occur in `s` the result is
`[cleanToken s]`; if the last raw piece is empty, that is the last match ends at the
end of `s`, the final element is empty, which is always so when `d` is a single
character that ends `s`; and a&&&b split on && is [a, &b]. -/
theorem split_leftmost_cut (s d : Str) (hd : d ≠ []) :
    (∃ segs ps : List Str, split s d = some segs ∧ segs.length = occurrences d s + 1 ∧
        segs = ps.map cleanToken ∧ d.intercalate ps = s ∧ LeftmostCut d ps ∧
        (ps.getLast? = some [] → segs.getLast? = some []))
    ∧ ((∀ j, ¬ d <+: s.drop j) → split s d = some [cleanToken s])
    ∧ (∀ c, d = [c] → [c] <:+ s → ∃ segs, split s d = some segs ∧ segs.getLast? = some [])
    ∧ split ['a', '&', '&', '&', 'b'] andDelim = some [['a'], ['&', 'b']] := by
  obtain ⟨ps, h1, h2, h3, h4, h5⟩ := split_spec s d hd
  refine ⟨⟨ps.map cleanToken, ps, h3, by simpa using h5, rfl, h2, h4, ?_⟩, ?_, ?_, by decide⟩
  · intro hl
    rw [List.getLast?_map, hl]
    rfl
  · intro hno
    have hk : occurrences d s = 0 := countMatches_none d _ _ hno
    rw [hk] at h5
    obtain ⟨p, rfl⟩ := List.length_eq_one.mp h5
    rw [intercalate_single] at h2
    rw [h3, h2]
    rfl
  · rintro c rfl ⟨front, hfront⟩
    refine ⟨ps.map cleanToken, h3, ?_⟩
    have hlast := leftmostCut_last [c] ps h1 h4
    obtain ⟨fr, hfr⟩ := intercalate_ends_with_last [c] ps h1
    have hnil : ps.getLast h1 = [] := by
      rcases List.eq_nil_or_concat (ps.getLast h1) with hn | ⟨init, x, hx⟩
      · exact hn
      · exfalso
        rw [h2, hx, ← hfront] at hfr
        have hxc : c = x := by
          have := congrArg List.getLast? hfr
          simpa using this
        apply hlast init.length
        rw [hx, hxc, List.concat_eq_append, List.drop_left]
    rw [List.getLast?_map, List.getLast?_eq_getLast _ h1, hnil]
    rfl

theorem split_leftmost_cut_witness :
    andDelim ≠ [] ∧
    ((∃ segs ps : List Str, split ['a', '&', '&', '&'] andDelim = some segs ∧
        segs.length = occurrences andDelim ['a', '&', '&', '&'] + 1 ∧
        segs = ps.map cleanToken ∧ andDelim.intercalate ps = ['a', '&', '&', '&'] ∧
        LeftmostCut andDelim ps ∧ (ps.getLast? = some [] → segs.getLast? = some []))
    ∧ ((∀ j, ¬ andDelim <+: (['a', '&', '&', '&'] : Str).drop j) →
        split ['a', '&', '&', '&'] andDelim = some [cleanToken ['a', '&', '&', '&']])
    ∧ (∀ c, andDelim = [c] → [c] <:+ ['a', '&', '&', '&'] →
        ∃ segs, split ['a', '&', '&', '&'] andDelim = some segs ∧ segs.getLast? = some [])
    ∧ split ['a', '&', '&', '&', 'b'] andDelim = some [['a'], ['&', 'b']]) :=
  ⟨by decide, split_leftmost_cut ['a', '&', '&', '&'] andDelim (by decide)⟩

/-- C8, the case that fails: the string made of an ampersand, a double quote and an
ampersand holds no occurrence of &&, so the split on && returns one element, and the
removal of the quote makes that element the delimiter itself. -/
theorem split_segment_counterexample :
    split ['&', dquote, '&'] andDelim = some [['&', '&']] ∧ andDelim <:+: ['&', '&'] :=
  ⟨by decide, ⟨[], [], by decide⟩⟩

/-- C8 as amended: for every non-empty delimiter no raw piece cut by `split` contains
the delimiter; no element of `split s ";"` contains `;`; and no element of
`split s "&&"` contains `&&` when `s` has no quote character (quote removal is the
only way two ampersands can come together), which is the case of every group that
`main` obtains from the split of a line on `;`. -/
theorem split_segment_invariant :
    (∀ s d : Str, d ≠ [] → ∃ ps : List Str, d.intercalate ps = s ∧
        split s d = some (ps.map cleanToken) ∧ ∀ p ∈ ps, ¬ d <:+: p)
    ∧ (∀ s : Str, ∃ segs, split s semiDelim = some segs ∧ ∀ seg ∈ segs, ¬ semiDelim <:+: seg)
    ∧ (∀ s : Str, (∀ c ∈ s, c ≠ dquote ∧ c ≠ squote) →
        ∃ segs, split s andDelim = some segs ∧ ∀ seg ∈ segs, ¬ andDelim <:+: seg)
    ∧ (∀ input : Str, ∃ groups, split input semiDelim = some groups ∧
        ∀ g ∈ groups, ∃ parts, split g andDelim = some parts ∧
          ∀ part ∈ parts, ¬ andDelim <:+: part) := by
  refine ⟨?_, ?_, ?_, ?_⟩
  · intro s d hd
    obtain ⟨ps, _, h2, h3, h4, _⟩ := split_spec s d hd
    exact ⟨ps, h2, h3, fun p hp =>
      not_infix_of_no_occurrence d p (leftmostCut_pieces d hd ps h4 p hp)⟩
  · intro s
    obtain ⟨ps, _, h2, h3, h4, _⟩ := split_spec s semiDelim (by decide)
    refine ⟨ps.map cleanToken, h3, ?_⟩
    intro seg hseg
    obtain ⟨p, hp, rfl⟩ := List.mem_map.mp hseg
    have hraw := not_infix_of_no_occurrence semiDelim p
      (leftmostCut_pieces semiDelim (by decide) ps h4 p hp)
    intro hin
    apply hraw
    have hmem : ';' ∈ cleanToken p := by
      obtain ⟨a, b, hab⟩ := hin
      rw [← hab]
      simp [semiDelim]
    obtain ⟨a, b, hab⟩ := List.append_of_mem (cleanToken_mem p ';' hmem)
    exact ⟨a, b, by simp [semiDelim, hab]⟩
  · intro s hs
    apply split_and_noquote s
    intro c hc
    have := hs c hc
    rw [← Bool.not_eq_true, isQuote_iff]
    tauto
  · intro input
    obtain ⟨ps, _, _, h3, _, _⟩ := split_spec input semiDelim (by decide)
    refine ⟨ps.map cleanToken, h3, ?_⟩
    intro g hg
    obtain ⟨p, _, rfl⟩ := List.mem_map.mp hg
    apply split_and_noquote
    intro c hc
    rw [cleanToken_eq_spec] at hc
    exact cleanTokenSpec_noquote p c hc

/-! ## Lemmas on `executeBase` -/

theorem scanLoop_op_operand (openf : Str → OpenFlags → Int) (t path : Str) (ss : List Str)
    (st : Scan) (h : isRedirOp t = true) :
    scanLoop openf (t :: path :: ss) st = scanLoop openf ss (redirect openf t path st) := by
  simp only [isRedirOp, isOutOp, isErrOp, Bool.or_eq_true, decide_eq_true_eq] at h
  rcases h with (h | h | h | h) | (h | h) <;> subst h <;>
    simp [scanLoop, redirect, isOutOp, isErrOp, flagsOf]

theorem scanLoop_op_last (openf : Str → OpenFlags → Int) (t : Str)
    (st : Scan) (h : isRedirOp t = true) :
    scanLoop openf [t] st = redirect openf t t st := by
  simp only [isRedirOp, isOutOp, isErrOp, Bool.or_eq_true, decide_eq_true_eq] at h
  rcases h with (h | h | h | h) | (h | h) <;> subst h <;>
    simp [scanLoop, redirect, isOutOp, isErrOp, flagsOf]

theorem scanLoop_arg (openf : Str → OpenFlags → Int) (t : Str) (ss : List Str)
    (st : Scan) (h : isRedirOp t = false) :
    scanLoop openf (t :: ss) st =
      scanLoop openf ss { st with args := st.args ++ [cleanToken t] } := by
  simp only [isRedirOp, isOutOp, isErrOp, Bool.or_eq_false_iff, decide_eq_false_iff_not,
    not_or] at h
  obtain ⟨⟨h1, h2, h3, h4⟩, h5, h6⟩ := h
  cases ss <;> simp [scanLoop, h1, h2, h3, h4, h5, h6]

theorem isErrOp_of_isOutOp (t : Str) (h : isOutOp t = true) : isErrOp t = false := by
  simp only [isOutOp, decide_eq_true_eq] at h
  rcases h with h | h | h | h <;> subst h <;> decide

theorem resolve_nil (openf : Str → OpenFlags → Int) (fd : Int) : resolve openf fd [] = fd := by
  simp [resolve]

theorem resolve_cons (openf : Str → OpenFlags → Int) (fd : Int) (r : Str × Option Str)
    (rs : List (Str × Option Str)) :
    resolve openf fd (r :: rs) = resolve openf (resolve openf fd [r]) rs := by
  cases rs with
  | nil => simp [resolve]
  | cons a rs =>
    unfold resolve
    rw [List.getLast?_cons_cons, List.getLast?_eq_getLast _ (List.cons_ne_nil a rs)]
    rcases (a :: rs).getLast (List.cons_ne_nil a rs) with ⟨op, _ | path⟩ <;> rfl

theorem argTokens_arg (t : Str) (ss : List Str) (h : isRedirOp t = false) :
    argTokens (t :: ss) = t :: argTokens ss := by
  cases ss <;> simp [argTokens, h]

theorem redirs_arg (t : Str) (ss : List Str) (h : isRedirOp t = false) :
    redirs (t :: ss) = redirs ss := by
  cases ss <;> simp [redirs, h]

theorem scanLoop_spec (openf : Str → OpenFlags → Int) :
    ∀ (n : Nat) (toks : List Str) (st : Scan), toks.length ≤ n →
      (scanLoop openf toks st).args = st.args ++ (argTokens toks).map cleanToken ∧
      (scanLoop openf toks st).out_fd =
        resolve openf st.out_fd ((redirs toks).filter (fun r => isOutOp r.1)) ∧
      (scanLoop openf toks st).err_fd =
        resolve openf st.err_fd ((redirs toks).filter (fun r => isErrOp r.1)) := by
  intro n
  induction n with
  | zero =>
    intro toks st h
    have : toks = [] := List.length_eq_zero.mp (Nat.le_zero.mp h)
    subst this
    simp [scanLoop, argTokens, redirs, resolve_nil]
  | succ n ih =>
    intro toks st h
    cases toks with
    | nil => simp [scanLoop, argTokens, redirs, resolve_nil]
    | cons t ss =>
      cases hop : isRedirOp t with
      | false =>
        rw [scanLoop_arg openf t ss st hop]
        obtain ⟨h1, h2, h3⟩ := ih ss { st with args := st.args ++ [cleanToken t] }
          (by simpa using h)
        rw [h1, h2, h3, argTokens_arg t ss hop, redirs_arg t ss hop]
        simp
      | true =>
        cases ss with
        | nil =>
          rw [scanLoop_op_last openf t st hop]
          cases ho : isOutOp t with
          | true =>
            have he := isErrOp_of_isOutOp t ho
            simp [redirect, ho, he, argTokens, redirs, hop, resolve]
          | false =>
            have he : isErrOp t = true := by simpa [isRedirOp, ho] using hop
            simp [redirect, ho, he, argTokens, redirs, hop, resolve]
        | cons path ss1 =>
          rw [scanLoop_op_operand openf t path ss1 st hop]
          obtain ⟨h1, h2, h3⟩ := ih ss1 (redirect openf t path st)
            (by simp only [List.length_cons] at h; omega)
          cases ho : isOutOp t with
          | true =>
            have he := isErrOp_of_isOutOp t ho
            simp only [argTokens, redirs, hop, if_true, List.filter_cons, ho, he]
            rw [resolve_cons, h1, h2, h3]
            simp [redirect, ho, resolve]
          | false =>
            have he : isErrOp t = true := by simpa [isRedirOp, ho] using hop
            simp only [argTokens, redirs, hop, if_true, List.filter_cons, ho, he]
            rw [resolve_cons, h1, h2, h3]
            simp [redirect, ho, he, resolve]

theorem executeBase_fields (openf : Str → OpenFlags → Int) (cmd : Str) :
    (executeBase openf cmd).cargs = buildArgs ((argTokens (words cmd)).map cleanToken) ∧
    (executeBase openf cmd).out_fd =
      resolve openf (-1) ((redirs (words cmd)).filter (fun r => isOutOp r.1)) ∧
    (executeBase openf cmd).err_fd =
      resolve openf (-1) ((redirs (words cmd)).filter (fun r => isErrOp r.1)) := by
  obtain ⟨h1, h2, h3⟩ := scanLoop_spec openf (words cmd).length (words cmd)
    { args := [], out_fd := -1, err_fd := -1 } (Nat.le_refl _)
  simp only [executeBase, h1, h2, h3]
  simp

theorem wordsAux_spec : ∀ (l cur : Str), (∀ c ∈ cur, isspace c = false) →
    ∀ t ∈ wordsAux l cur, t ≠ [] ∧ ∀ c ∈ t, isspace c = false := by
  intro l
  induction l with
  | nil =>
    intro cur hcur t ht
    simp only [wordsAux] at ht
    split at ht
    · cases ht
    · rename_i hne
      simp only [List.mem_singleton] at ht
      subst ht
      exact ⟨by simpa using hne, hcur⟩
  | cons c cs ih =>
    intro cur hcur t ht
    simp only [wordsAux] at ht
    split at ht
    · split at ht
      · exact ih [] (by simp) t ht
      · rename_i hne
        rcases List.mem_cons.mp ht with rfl | ht
        · exact ⟨by simpa using hne, hcur⟩
        · exact ih [] (by simp) t ht
    · rename_i hc
      refine ih (cur ++ [c]) ?_ t ht
      intro x hx
      rcases List.mem_append.mp hx with hx | hx
      · exact hcur x hx
      · simp only [List.mem_singleton] at hx
        subst hx
        simpa using hc

/-! ## Claims on `executeBase` -/

/-- C9: for every command text, reading its whitespace-separated tokens (non-empty
words free of white space) left to right, a token that is one of the six redirection
operators is not an argument and neither is the token right after it, whatever it
is; the vector handed to `execvp` is the `cleanToken` images of the remaining tokens,
the empty ones dropped, in order, followed by one null sentinel. -/
theorem executeBase_token_scan (openf : Str → OpenFlags → Int) (cmd : Str) :
    (executeBase openf cmd).cargs =
      (((argTokens (words cmd)).map cleanToken).filter (fun a => a ≠ [])).map some ++ [none]
    ∧ (∀ t ∈ words cmd, t ≠ [] ∧ ∀ c ∈ t, isspace c = false) := by
  refine ⟨?_, wordsAux_spec cmd [] (by simp)⟩
  rw [(executeBase_fields openf cmd).1]
  unfold buildArgs
  congr 2
  apply List.filter_congr
  intro a _
  cases a <;> simp

/-- C10, the case that fails: in the text echo 2> > x the token > is followed by the
operand x, yet the scan has taken > as the path of the operator 2> before it, so
standard output is left unbound and x is passed as an argument. -/
theorem executeBase_redirection_counterexample :
    words ['e', 'c', 'h', 'o', ' ', '2', '>', ' ', '>', ' ', 'x']
      = [['e', 'c', 'h', 'o'], ['2', '>'], ['>'], ['x']]
    ∧ (executeBase openThree ['e', 'c', 'h', 'o', ' ', '2', '>', ' ', '>', ' ', 'x']).out_fd = -1
    ∧ (executeBase openThree ['e', 'c', 'h', 'o', ' ', '2', '>', ' ', '>', ' ', 'x']).stdoutTo
        = none
    ∧ (executeBase openThree ['e', 'c', 'h', 'o', ' ', '2', '>', ' ', '>', ' ', 'x']).cargs
        = [some ['e', 'c', 'h', 'o'], some ['x'], none]
    ∧ openThree ['x'] OpenFlags.trunc ≠ -1 := by
  decide

/-- C10 as amended: read the tokens left to right as the scan does, an operator
literal taken as the operand of the operator before it not being an operator.  If the
last standard-output operator so read is followed by an operand, the descriptor kept
for standard output is the one `open` returns for that operand, with the truncate
flags for `>` and `1>` and the append flags for `>>` and `1>>`; likewise for standard
error with `2>` and `2>>`.  A stream with no operator keeps `-1`; a descriptor is
rebound by `dup2` exactly when it is not `-1`; and the descriptor of each stream
depends on the redirections of that stream only. -/
theorem executeBase_last_redirection (openf : Str → OpenFlags → Int) (cmd : Str) :
    (∀ op path, lastOut (words cmd) = some (op, some path) →
        isOutOp op = true ∧
        ((op = ['>'] ∨ op = ['1', '>']) →
          (executeBase openf cmd).out_fd = openf path OpenFlags.trunc) ∧
        ((op = ['>', '>'] ∨ op = ['1', '>', '>']) →
          (executeBase openf cmd).out_fd = openf path OpenFlags.append))
    ∧ (∀ op path, lastErr (words cmd) = some (op, some path) →
        isErrOp op = true ∧
        (op = ['2', '>'] → (executeBase openf cmd).err_fd = openf path OpenFlags.trunc) ∧
        (op = ['2', '>', '>'] → (executeBase openf cmd).err_fd = openf path OpenFlags.append))
    ∧ (lastOut (words cmd) = none → (executeBase openf cmd).out_fd = -1)
    ∧ (lastErr (words cmd) = none → (executeBase openf cmd).err_fd = -1)
    ∧ (executeBase openf cmd).stdoutTo =
        (if (executeBase openf cmd).out_fd = -1 then none
          else some (executeBase openf cmd).out_fd)
    ∧ (executeBase openf cmd).stderrTo =
        (if (executeBase openf cmd).err_fd = -1 then none
          else some (executeBase openf cmd).err_fd)
    ∧ (∀ cmd2, (redirs (words cmd)).filter (fun r => isOutOp r.1)
          = (redirs (words cmd2)).filter (fun r => isOutOp r.1) →
        (executeBase openf cmd).out_fd = (executeBase openf cmd2).out_fd)
    ∧ (∀ cmd2, (redirs (words cmd)).filter (fun r => isErrOp r.1)
          = (redirs (words cmd2)).filter (fun r => isErrOp r.1) →
        (executeBase openf cmd).err_fd = (executeBase openf cmd2).err_fd)
    ∧ (lastOut (words ['l', 's', ' ', '>', ' ', 'a', ' ', '2', '>', ' ', 'e', ' ', '>', '>', ' ', 'b'])
          = some (['>', '>'], some ['b'])
        ∧ (executeBase openf
            ['l', 's', ' ', '>', ' ', 'a', ' ', '2', '>', ' ', 'e', ' ', '>', '>', ' ', 'b']).out_fd
          = openf ['b'] OpenFlags.append
        ∧ (executeBase openf
            ['l', 's', ' ', '>', ' ', 'a', ' ', '2', '>', ' ', 'e', ' ', '>', '>', ' ', 'b']).err_fd
          = openf ['e'] OpenFlags.trunc) := by
  obtain ⟨_, hout, herr⟩ := executeBase_fields openf cmd
  refine ⟨?_, ?_, ?_, ?_, ?_, ?_, ?_, ?_, ⟨by decide, rfl, rfl⟩⟩
  · intro op path h
    have hmem := List.mem_of_getLast?_eq_some h
    have hop : isOutOp op = true := by simpa using (List.mem_filter.mp hmem).2
    unfold lastOut at h
    refine ⟨hop, ?_, ?_⟩
    · intro hl
      rw [hout, resolve, h]
      rcases hl with rfl | rfl <;> rfl
    · intro hl
      rw [hout, resolve, h]
      rcases hl with rfl | rfl <;> rfl
  · intro op path h
    have hmem := List.mem_of_getLast?_eq_some h
    have hop : isErrOp op = true := by simpa using (List.mem_filter.mp hmem).2
    unfold lastErr at h
    refine ⟨hop, ?_, ?_⟩
    · intro hl
      rw [herr, resolve, h, hl]
      rfl
    · intro hl
      rw [herr, resolve, h, hl]
      rfl
  · intro h
    unfold lastOut at h
    rw [hout, resolve, h]
  · intro h
    unfold lastErr at h
    rw [herr, resolve, h]
  · simp only [executeBase]
    split <;> simp_all
  · simp only [executeBase]
    split <;> simp_all
  · intro cmd2 h
    rw [hout, (executeBase_fields openf cmd2).2.1, h]
  · intro cmd2 h
    rw [herr, (executeBase_fields openf cmd2).2.2, h]

/-! ## Lemmas on the sequencing loops of `main` -/

theorem dispatch_call {σ : Type} (os : OS σ) (part : Str) (w : σ) :
    (dispatch os part w).1.call = callOf part := by
  unfold dispatch callOf
  cases findChar '|' part <;> rfl

theorem runParts_cons {σ : Type} (os : OS σ) (size : Nat) (part : Str) (rest : List Str)
    (w : σ) :
    runParts os size (part :: rest) w =
      if (dispatch os part w).1.status ≠ 0 ∧ size > 1 then
        ([(dispatch os part w).1], (dispatch os part w).2)
      else
        ((dispatch os part w).1 :: (runParts os size rest (dispatch os part w).2).1,
          (runParts os size rest (dispatch os part w).2).2) := by
  rfl

theorem runParts_head {σ : Type} (os : OS σ) (size : Nat) (part : Str) (rest : List Str)
    (w : σ) :
    (runParts os size (part :: rest) w).1.head? = some (dispatch os part w).1 := by
  rw [runParts_cons]
  split <;> rfl

theorem runParts_spec {σ : Type} (os : OS σ) (size : Nat) (hsize : 2 ≤ size) :
    ∀ (parts : List Str) (w : σ),
      (runParts os size parts w).1.length ≤ parts.length ∧
      (runParts os size parts w).1.map Event.call =
        (parts.take (runParts os size parts w).1.length).map callOf ∧
      (∀ i (h : i < (runParts os size parts w).1.length),
        i + 1 < (runParts os size parts w).1.length →
          ((runParts os size parts w).1.get ⟨i, h⟩).status = 0) ∧
      ((runParts os size parts w).1.length < parts.length →
        ∃ e, (runParts os size parts w).1.getLast? = some e ∧ e.status ≠ 0) := by
  intro parts
  induction parts with
  | nil => intro w; simp [runParts]
  | cons part rest ih =>
    intro w
    rw [runParts_cons]
    by_cases hst : (dispatch os part w).1.status ≠ 0 ∧ size > 1
    · rw [if_pos hst]
      refine ⟨by simp, by simp [dispatch_call], ?_, ?_⟩
      · intro i h h2
        simp at h2
      · intro _
        exact ⟨(dispatch os part w).1, rfl, hst.1⟩
    · rw [if_neg hst]
      have hzero : (dispatch os part w).1.status = 0 := by
        by_contra hne
        exact hst ⟨hne, by omega⟩
      obtain ⟨h1, h2, h3, h4⟩ := ih (dispatch os part w).2
      refine ⟨by simpa using h1, by simp [dispatch_call, h2], ?_, ?_⟩
      · intro i h hi
        cases i with
        | zero => exact hzero
        | succ j =>
          simp only [List.length_cons] at h hi
          exact h3 j (by omega) (by omega)
      · intro hlt
        simp only [List.length_cons, Nat.add_lt_add_iff_right] at hlt
        obtain ⟨e, he, hne⟩ := h4 hlt
        refine ⟨e, ?_, hne⟩
        show ((dispatch os part w).1 ::
          (runParts os size rest (dispatch os part w).2).1).getLast? = some e
        generalize (runParts os size rest (dispatch os part w).2).1 = tl at he
        cases tl with
        | nil => cases he
        | cons a l => rw [List.getLast?_cons_cons]; exact he

theorem runGroup_total {σ : Type} (os : OS σ) (cmd : Str) (w : σ) :
    ∃ u us, split cmd andDelim = some (u :: us) ∧
      runGroup os cmd w = some (runParts os (u :: us).length (u :: us) w) := by
  obtain ⟨ps, h1, _, h3, _, _⟩ := split_spec cmd andDelim (by decide)
  cases ps with
  | nil => exact absurd rfl h1
  | cons p ps =>
    refine ⟨cleanToken p, ps.map cleanToken, by simpa using h3, ?_⟩
    unfold runGroup
    rw [h3]
    rfl

theorem runGroup_single {σ : Type} (os : OS σ) (cmd part : Str) (w : σ)
    (h : split cmd andDelim = some [part]) :
    runGroup os cmd w = some ([(dispatch os part w).1], (dispatch os part w).2) := by
  unfold runGroup
  rw [h]
  simp only [List.length_singleton, runParts_cons]
  split <;> rfl

theorem runCommands_spec {σ : Type} (os : OS σ) : ∀ (groups : List Str) (w : σ),
    ∃ (ts : List (List Event)) (t : List Event) (w2 : σ),
      runCommands os groups w = some (t, w2) ∧ groupTraces os groups w = some ts ∧
      t = ts.flatten ∧
      List.Forall₂ (fun g tr => ∃ u us, split g andDelim = some (u :: us) ∧
        tr.head?.map Event.call = some (callOf u)) groups ts := by
  intro groups
  induction groups with
  | nil => intro w; exact ⟨[], [], w, rfl, rfl, rfl, List.Forall₂.nil⟩
  | cons g gs ih =>
    intro w
    obtain ⟨u, us, hs, hg⟩ := runGroup_total os g w
    obtain ⟨ts, t, w2, h1, h2, h3, h4⟩ := ih (runParts os (u :: us).length (u :: us) w).2
    refine ⟨(runParts os (u :: us).length (u :: us) w).1 :: ts,
      (runParts os (u :: us).length (u :: us) w).1 ++ t, w2, ?_, ?_, ?_, ?_⟩
    · simp only [runCommands, hg, h1]
    · simp only [groupTraces, hg, h2]
    · rw [h3, List.flatten_cons]
    · refine List.Forall₂.cons ⟨u, us, hs, ?_⟩ h4
      rw [runParts_head, Option.map_some', dispatch_call]

/-! ## Claims on the sequencing loops of `main` -/

theorem runParts_chain_shape {σ : Type} (os : OS σ) (parts : List Str) (w : σ)
    (hn : 2 ≤ parts.length) :
    ∃ (t : List Event) (w2 : σ), runParts os parts.length parts w = (t, w2) ∧
      1 ≤ t.length ∧ t.length ≤ parts.length ∧
      t.map Event.call = (parts.take t.length).map callOf ∧
      (∀ i (h : i < t.length), i + 1 < t.length → (t.get ⟨i, h⟩).status = 0) ∧
      (t.length < parts.length → ∃ e, t.getLast? = some e ∧ e.status ≠ 0) ∧
      (∀ e, t.head? = some e →
        (e.status ≠ 0 → t.length = 1) ∧ (e.status = 0 → 2 ≤ t.length)) := by
  obtain ⟨h1, h2, h3, h4⟩ := runParts_spec os parts.length hn parts w
  have hpos : 1 ≤ (runParts os parts.length parts w).1.length := by
    cases parts with
    | nil => simp at hn
    | cons p ps =>
      have hh := runParts_head os (p :: ps).length p ps w
      cases hl : (runParts os (p :: ps).length (p :: ps) w).1 with
      | nil => rw [hl] at hh; cases hh
      | cons a l => simp
  refine ⟨(runParts os parts.length parts w).1, (runParts os parts.length parts w).2,
    rfl, hpos, h1, h2, h3, h4, ?_⟩
  revert h3 h4 hpos
  generalize (runParts os parts.length parts w).1 = tr
  intro h3 h4 hpos e he
  cases tr with
  | nil => cases he
  | cons a l =>
    simp only [List.head?_cons, Option.some.injEq] at he
    subst he
    constructor
    · intro hne
      by_contra hlen
      simp only [List.length_cons] at hlen
      have hl : 0 < l.length := by
        cases l with
        | nil => simp at hlen
        | cons b l2 => simp
      exact hne (h3 0 (by simp) (by simpa using hl))
    · intro hz
      by_contra hlen
      have hnil : l = [] := by
        cases l with
        | nil => rfl
        | cons b l2 => simp at hlen
      subst hnil
      obtain ⟨e2, hlast, hne⟩ := h4 (by simpa using hn)
      simp only [List.getLast?_singleton, Option.some.injEq] at hlast
      rw [← hlast] at hne
      exact hne hz

theorem dispatch_eq_runUnit {σ : Type} (os : OS σ) (part : Str) (w : σ) :
    dispatch os part w
      = ({ call := callOf part, status := (runUnit os part w).1 }, (runUnit os part w).2) := by
  unfold dispatch runUnit callOf
  cases findChar '|' part <;> rfl

theorem runParts_take {σ : Type} (os : OS σ) (size : Nat) (hsize : 2 ≤ size) :
    ∀ (parts : List Str) (w : σ),
      runParts os size parts w
        = ((allEvents os parts w).take (firstFailure (allEvents os parts w)),
            worldAfter os (parts.take (firstFailure (allEvents os parts w))) w) := by
  intro parts
  induction parts with
  | nil => intro w; rfl
  | cons p rest ih =>
    intro w
    rw [runParts_cons, dispatch_eq_runUnit]
    simp only [allEvents, firstFailure]
    by_cases hst : (runUnit os p w).1 ≠ 0
    · rw [if_pos ⟨hst, by omega⟩, if_pos hst]
      rfl
    · rw [if_neg (fun h => hst h.1), if_neg hst, ih (runUnit os p w).2]
      simp only [Nat.add_comm 1, List.take_succ_cons, worldAfter]

theorem firstFailure_le : ∀ (es : List Event), firstFailure es ≤ es.length := by
  intro es
  induction es with
  | nil => exact Nat.le_refl _
  | cons e es ih =>
    simp only [firstFailure, List.length_cons]
    split <;> omega

theorem allEvents_length {σ : Type} (os : OS σ) : ∀ (parts : List Str) (w : σ),
    (allEvents os parts w).length = parts.length := by
  intro parts
  induction parts with
  | nil => intro w; rfl
  | cons p rest ih => intro w; simp only [allEvents, List.length_cons, ih]

/-- C1: for every group whose split on && yields `n ≥ 2` units `u1..un` and for
every operating system, take the statuses that the runners `execSingle` and
`execPipe` return for the units, each run in the world the units before it left, and
let `k` be the index of the first unit whose status is non-zero (`n` if none is).  The
runner calls made for the group are exactly those of `u1..uk`, in order, each
recorded with the status its runner returned, and the world left is the one after
`uk`.  Hence the second unit is not dispatched when the runner of the first returns
non-zero and is dispatched when it returns 0. -/
theorem and_chain_short_circuit {σ : Type} (os : OS σ) (cmd : Str) (parts : List Str) (w : σ)
    (hsplit : split cmd andDelim = some parts) (hn : 2 ≤ parts.length) :
    ∃ (t : List Event) (w2 : σ), runGroup os cmd w = some (t, w2) ∧
      1 ≤ t.length ∧ t.length ≤ parts.length ∧
      t.map Event.call = (parts.take t.length).map callOf ∧
      (∀ i (h : i < t.length), i + 1 < t.length → (t.get ⟨i, h⟩).status = 0) ∧
      (t.length < parts.length → ∃ e, t.getLast? = some e ∧ e.status ≠ 0) ∧
      (∀ e, t.head? = some e →
        (e.status ≠ 0 → t.length = 1) ∧ (e.status = 0 → 2 ≤ t.length)) ∧
      t = (allEvents os parts w).take (firstFailure (allEvents os parts w)) ∧
      t.length = firstFailure (allEvents os parts w) ∧
      w2 = worldAfter os (parts.take t.length) w ∧
      (∀ u1 u2 rest, parts = u1 :: u2 :: rest →
        ((runUnit os u1 w).1 ≠ 0 →
          t = [{ call := callOf u1, status := (runUnit os u1 w).1 }]) ∧
        ((runUnit os u1 w).1 = 0 → ∃ t2,
          t = { call := callOf u1, status := 0 } ::
            { call := callOf u2, status := (runUnit os u2 (runUnit os u1 w).2).1 } :: t2)) := by
  obtain ⟨t, w2, hrun, h1, h2, h3, h4, h5, h6⟩ := runParts_chain_shape os parts w hn
  have htake := runParts_take os parts.length hn parts w
  rw [hrun] at htake
  simp only [Prod.mk.injEq] at htake
  obtain ⟨ht, hw⟩ := htake
  have hlen : t.length = firstFailure (allEvents os parts w) := by
    rw [ht, List.length_take]
    exact Nat.min_eq_left (firstFailure_le _)
  refine ⟨t, w2, by simp only [runGroup, hsplit, hrun], h1, h2, h3, h4, h5, h6, ht, hlen,
    by rw [hw, hlen], ?_⟩
  intro u1 u2 rest hp
  subst hp
  simp only [allEvents, firstFailure] at ht
  constructor
  · intro hne
    rw [if_pos hne] at ht
    rw [ht]
    rfl
  · intro hz
    rw [if_neg (by simpa using hz)] at ht
    by_cases h2z : (runUnit os u2 (runUnit os u1 w).2).1 ≠ 0
    · rw [if_pos h2z] at ht
      exact ⟨[], by rw [ht, hz]; rfl⟩
    · rw [if_neg h2z] at ht
      refine ⟨(allEvents os rest (runUnit os u2 (runUnit os u1 w).2).2).take
        (firstFailure (allEvents os rest (runUnit os u2 (runUnit os u1 w).2).2)), ?_⟩
      rw [ht, hz]
      simp only [Nat.add_comm 1, List.take_succ_cons]

theorem and_chain_short_circuit_witness :
    split ['a', ' ', '&', '&', ' ', 'b'] andDelim = some [['a'], ['b']] ∧
    2 ≤ ([['a'], ['b']] : List Str).length ∧
    (runUnit (osConst 256) ['a'] ()).1 = 1 ∧
    runGroup (osConst 256) ['a', ' ', '&', '&', ' ', 'b'] ()
      = some ([{ call := Dispatch.single ['a'], status := 1 }], ()) ∧
    runGroup (osConst 0) ['a', ' ', '&', '&', ' ', 'b'] ()
      = some ([{ call := Dispatch.single ['a'], status := 0 },
          { call := Dispatch.single ['b'], status := 0 }], ()) ∧
    ∃ (t : List Event) (w2 : Unit),
      runGroup (osConst 256) ['a', ' ', '&', '&', ' ', 'b'] () = some (t, w2) ∧
      t = (allEvents (osConst 256) [['a'], ['b']] ()).take
        (firstFailure (allEvents (osConst 256) [['a'], ['b']] ())) ∧
      t.length = 1 := by
  refine ⟨by decide, by decide, by decide, by decide, by decide, ?_⟩
  obtain ⟨t, w2, h1, _, _, _, _, _, _, h8, h9, _, _⟩ :=
    and_chain_short_circuit (osConst 256) ['a', ' ', '&', '&', ' ', 'b'] [['a'], ['b']] ()
      (by decide) (by decide)
  exact ⟨t, w2, h1, h8, by rw [h9]; decide⟩

/-- C2: for every input line and every operating system, `main` runs the line to
its end, and the runner calls made for the line are the concatenation, in order, of
the calls made for each `;`-group taken alone; every group has a first unit and the
first call of the group is the dispatch of that unit, whatever the groups before it
returned.  For the line false; echo hi the unit echo hi is dispatched. -/
theorem semicolon_groups_independent {σ : Type} (os : OS σ) (input : Str) (w : σ) :
    (∃ (groups : List Str) (ts : List (List Event)) (t : List Event) (w2 : σ),
      split input semiDelim = some groups ∧ runLine os input w = some (t, w2) ∧
      groupTraces os groups w = some ts ∧ t = ts.flatten ∧
      List.Forall₂ (fun g tr => ∃ u us, split g andDelim = some (u :: us) ∧
        tr.head?.map Event.call = some (callOf u)) groups ts)
    ∧ (runLine os ['f', 'a', 'l', 's', 'e', ';', ' ', 'e', 'c', 'h', 'o', ' ', 'h', 'i'] w).map
        (fun r => r.1.map Event.call)
      = some [Dispatch.single ['f', 'a', 'l', 's', 'e'],
          Dispatch.single ['e', 'c', 'h', 'o', ' ', 'h', 'i']] := by
  constructor
  · obtain ⟨ps, _, _, h3, _, _⟩ := split_spec input semiDelim (by decide)
    obtain ⟨ts, t, w2, h1, h2, h4, h5⟩ := runCommands_spec os (ps.map cleanToken) w
    exact ⟨ps.map cleanToken, ts, t, w2, h3, by simp only [runLine, h3, h1], h2, h4, h5⟩
  · have h1 : split ['f', 'a', 'l', 's', 'e', ';', ' ', 'e', 'c', 'h', 'o', ' ', 'h', 'i'] semiDelim
        = some [['f', 'a', 'l', 's', 'e'], ['e', 'c', 'h', 'o', ' ', 'h', 'i']] := by decide
    have h2 : split ['f', 'a', 'l', 's', 'e'] andDelim = some [['f', 'a', 'l', 's', 'e']] := by
      decide
    have h3 : split ['e', 'c', 'h', 'o', ' ', 'h', 'i'] andDelim
        = some [['e', 'c', 'h', 'o', ' ', 'h', 'i']] := by decide
    simp only [runLine, h1, runCommands, runGroup_single os _ _ _ h2,
      runGroup_single os _ _ _ h3, Option.map_some', List.map_cons, List.map_nil,
      List.cons_append, List.nil_append, dispatch_call]
    rfl

/-- C3, evaluated at the line made of one semicolon: both units of the line are
empty and each is handed to `execSingle`; for the empty command text the vector
given to `execvp` is the null sentinel alone, so the program name is null. -/
theorem empty_units_are_dispatched {σ : Type} (os : OS σ) (w : σ)
    (openf : Str → OpenFlags → Int) :
    split [';'] semiDelim = some [[], []]
    ∧ (runLine os [';'] w).map (fun r => r.1.map Event.call)
        = some [Dispatch.single [], Dispatch.single []]
    ∧ (executeBase openf []).cargs = [none]
    ∧ ((executeBase openf []).cargs.head? = some none) := by
  have h2 : split [] andDelim = some [[]] := by decide
  refine ⟨by decide, ?_, rfl, rfl⟩
  simp only [runLine, show split [';'] semiDelim = some [[], []] by decide, runCommands,
    runGroup_single os _ _ _ h2, Option.map_some', List.map_cons, List.map_nil,
    List.cons_append, List.nil_append, dispatch_call]
  rfl

/-! ## Claims on `buildArgs` and the runners -/

/-- C11, the case that fails: the token made of one space normalizes to the empty
string, yet `buildArgs` keeps it, because it tests the token itself for emptiness. -/
theorem buildArgs_blank_counterexample :
    cleanToken [' '] = [] ∧ buildArgs [[' ']] = [some [' '], none] := by
  decide

/-- C11 as amended: for every sequence of tokens, `buildArgs` returns the pointers to
exactly the non-empty tokens, in order, followed by one null sentinel.  When the
tokens are already normalized these are the tokens whose normalization is non-empty,
and the tokens `executeBase` passes are normalized. -/
theorem buildArgs_contract (args : List Str) :
    buildArgs args = (args.filter (fun a => a ≠ [])).map some ++ [none]
    ∧ ((∀ a ∈ args, cleanToken a = a) →
        buildArgs args = (args.filter (fun a => cleanToken a ≠ [])).map some ++ [none])
    ∧ (∀ (openf : Str → OpenFlags → Int) (cmd : Str), ∃ args2 : List Str,
        (executeBase openf cmd).cargs = buildArgs args2 ∧ ∀ a ∈ args2, cleanToken a = a) := by
  have h1 : buildArgs args = (args.filter (fun a => a ≠ [])).map some ++ [none] := by
    unfold buildArgs
    congr 2
    apply List.filter_congr
    intro a _
    cases a <;> simp
  refine ⟨h1, ?_, ?_⟩
  · intro h
    rw [h1]
    congr 2
    apply List.filter_congr
    intro a ha
    rw [h a ha]
  · intro openf cmd
    refine ⟨(argTokens (words cmd)).map cleanToken, (executeBase_fields openf cmd).1, ?_⟩
    intro a ha
    obtain ⟨t, _, rfl⟩ := List.mem_map.mp ha
    rw [cleanToken_eq_spec (cleanToken t), cleanToken_eq_spec t]
    exact cleanTokenSpec_idem t

/-- C12, evaluated on a child killed by a signal: a status word whose exit-code byte
is zero, such as 9 for a child killed by signal 9, makes `execSingle` return 0, where
`execPipe` returns 1; so after a signalled first unit the second unit of an `&&` chain
is still dispatched.  For a child that exited normally with code `c` both return `c`. -/
theorem execSingle_signal_status {σ : Type} (os : OS σ) (cmd left right : Str) (w : σ) :
    ((os.wait (Dispatch.single cmd) w).1 < 256 → (execSingle os cmd w).1 = 0)
    ∧ (∀ c, c < 256 → (os.wait (Dispatch.single cmd) w).1 = 256 * c →
        (execSingle os cmd w).1 = c)
    ∧ (WIFEXITED (os.wait (Dispatch.pipe left right) w).1 = false →
        (execPipe os left right w).1 = 1)
    ∧ (WIFEXITED 9 = false ∧ (execSingle (osConst 9) cmd ()).1 = 0
        ∧ (execPipe (osConst 9) left right ()).1 = 1)
    ∧ (runGroup (osConst 9) ['a', ' ', '&', '&', ' ', 'b'] ()).map
        (fun r => r.1.map Event.call)
      = some [Dispatch.single ['a'], Dispatch.single ['b']] := by
  refine ⟨?_, ?_, ?_, ⟨by decide, by simp [execSingle, osConst, WEXITSTATUS],
    by simp [execPipe, osConst, WIFEXITED]⟩, by decide⟩
  · intro h
    simp only [execSingle, WEXITSTATUS]
    rw [Nat.div_eq_of_lt h]
  · intro c hc h
    simp only [execSingle, WEXITSTATUS, h]
    rw [Nat.mul_div_cancel_left c (by decide : 0 < 256)]
    exact Nat.mod_eq_of_lt hc
  · intro h
    simp only [execPipe, h]
    rfl

theorem findChar_some (c : Char) : ∀ (s : Str) (pos : Nat), findChar c s = some pos →
    c ∉ s.take pos ∧ s.take pos ++ [c] ++ s.drop (pos + 1) = s := by
  intro s
  induction s with
  | nil => intro pos h; cases h
  | cons x xs ih =>
    intro pos h
    simp only [findChar] at h
    split at h
    · rename_i hx
      simp only [Option.some.injEq] at h
      subst h
      simp [hx]
    · rename_i hx
      simp only [Option.map_eq_some'] at h
      obtain ⟨j, hj, rfl⟩ := h
      obtain ⟨h1, h2⟩ := ih j hj
      refine ⟨?_, ?_⟩
      · simp only [List.take_succ_cons, List.mem_cons, not_or]
        exact ⟨fun hc => hx hc.symm, h1⟩
      · simp only [List.take_succ_cons, List.drop_succ_cons, List.cons_append]
        rw [h2]

theorem findChar_none (c : Char) : ∀ (s : Str), findChar c s = none → c ∉ s := by
  intro s
  induction s with
  | nil => intro _; simp
  | cons x xs ih =>
    intro h
    simp only [findChar] at h
    split at h
    · cases h
    · rename_i hx
      simp only [Option.map_eq_none'] at h
      simp only [List.mem_cons, not_or]
      exact ⟨fun hc => hx hc.symm, ih h⟩

theorem runLine_total {σ : Type} (os : OS σ) (input : Str) (w : σ) :
    ∃ r, runLine os input w = some r := by
  obtain ⟨ps, _, _, h3, _, _⟩ := split_spec input semiDelim (by decide)
  obtain ⟨_, t, w2, h1, _, _, _⟩ := runCommands_spec os (ps.map cleanToken) w
  exact ⟨(t, w2), by simp only [runLine, h3, h1]⟩

theorem processLines_total {σ : Type} (os : OS σ) : ∀ (lines : List Str) (w : σ),
    ∃ r, processLines os lines w = some r := by
  intro lines
  induction lines with
  | nil => intro w; exact ⟨([], w), rfl⟩
  | cons l rest ih =>
    intro w
    simp only [processLines]
    split
    · exact ih w
    · obtain ⟨r, hr⟩ := runLine_total os l w
      obtain ⟨q, hq⟩ := ih r.2
      exact ⟨(r.1 ++ q.1, q.2), by simp only [hr, hq]⟩

theorem main_eq_processLines {σ : Type} (os : OS σ) : ∀ (lines : List Str) (w : σ),
    main os lines w = processLines os (lines.takeWhile (fun l => l ≠ exitWord)) w := by
  intro lines
  induction lines with
  | nil => intro w; rfl
  | cons l rest ih =>
    intro w
    by_cases hl : l = exitWord
    · subst hl
      simp [main, exitWord, processLines]
    · have hl2 : ¬ l = ['e', 'x', 'i', 't'] := hl
      rw [List.takeWhile_cons_of_pos (by simpa using hl)]
      simp only [main, processLines, hl2, if_false]
      split
      · exact ih w
      · cases runLine os l w with
        | none => rfl
        | some r => simp only [ih r.2]

/-! ## Claims on the pipeline dispatch and the read loop -/

/-- C13: for every unit text `u` that contains a bar, `main` makes for it one call,
to `execPipe`, with a left text free of bars and a right text such that left, bar,
right make up `u`; a bar is not a redirection operator.  For the line a | b | c the
right text is the text b | c after a space and the vector of the consumer is
[b, |, c] before the null sentinel. -/
theorem pipe_split_first_bar :
    (∀ {σ : Type} (os : OS σ) (u : Str) (w : σ), '|' ∈ u → ∃ left right,
        dispatch os u w =
          ({ call := Dispatch.pipe left right, status := (execPipe os left right w).1 },
            (execPipe os left right w).2)
        ∧ callOf u = Dispatch.pipe left right ∧ '|' ∉ left ∧ left ++ ['|'] ++ right = u)
    ∧ isRedirOp ['|'] = false
    ∧ (∀ {σ : Type} (os : OS σ) (w : σ),
        (runLine os ['a', ' ', '|', ' ', 'b', ' ', '|', ' ', 'c'] w).map
          (fun r => r.1.map Event.call)
        = some [Dispatch.pipe ['a', ' '] [' ', 'b', ' ', '|', ' ', 'c']])
    ∧ (∀ openf : Str → OpenFlags → Int,
        (executeBase openf [' ', 'b', ' ', '|', ' ', 'c']).cargs
        = [some ['b'], some ['|'], some ['c'], none]) := by
  refine ⟨?_, by decide, ?_, ?_⟩
  · intro σ os u w hu
    cases hf : findChar '|' u with
    | none => exact absurd hu (findChar_none '|' u hf)
    | some pos =>
      obtain ⟨h1, h2⟩ := findChar_some '|' u pos hf
      refine ⟨u.take pos, u.drop (pos + 1), ?_, ?_, h1, h2⟩
      · simp only [dispatch, hf, substr, List.drop_zero]
      · simp only [callOf, hf, substr, List.drop_zero]
  · intro σ os w
    have h1 : split ['a', ' ', '|', ' ', 'b', ' ', '|', ' ', 'c'] semiDelim
        = some [['a', ' ', '|', ' ', 'b', ' ', '|', ' ', 'c']] := by decide
    have h2 : split ['a', ' ', '|', ' ', 'b', ' ', '|', ' ', 'c'] andDelim
        = some [['a', ' ', '|', ' ', 'b', ' ', '|', ' ', 'c']] := by decide
    simp only [runLine, h1, runCommands, runGroup_single os _ _ _ h2, Option.map_some',
      List.map_cons, List.map_nil, List.cons_append, List.nil_append, dispatch_call]
    rfl
  · intro openf
    rfl

/-- C14: for every finite sequence of input lines and every operating system, the
read loop ends, and what it does is what running the lines strictly before the first
line equal to `exit` does (all lines if there is none): nothing of the `exit` line or
of a later line is dispatched, and an empty line dispatches nothing and lets the loop
go on. -/
theorem main_exit_keyword {σ : Type} (os : OS σ) (lines : List Str) (w : σ) :
    main os lines w = processLines os (lines.takeWhile (fun l => l ≠ exitWord)) w
    ∧ (∃ r, main os lines w = some r)
    ∧ (∀ pre post : List Str, exitWord ∉ pre →
        main os (pre ++ exitWord :: post) w = main os pre w)
    ∧ (exitWord ∉ lines → main os lines w = processLines os lines w)
    ∧ main os ([] :: lines) w = main os lines w
    ∧ main os (exitWord :: lines) w = some ([], w) := by
  have htw : ∀ l : List Str, exitWord ∉ l → l.takeWhile (fun x => x ≠ exitWord) = l := by
    intro l hl
    rw [List.takeWhile_eq_self_iff]
    intro x hx
    have : x ≠ exitWord := fun h => hl (h ▸ hx)
    simpa using this
  refine ⟨main_eq_processLines os lines w, ?_, ?_, ?_, ?_, ?_⟩
  · rw [main_eq_processLines]
    exact processLines_total os _ w
  · intro pre post hpre
    rw [main_eq_processLines, main_eq_processLines os pre]
    congr 1
    rw [htw pre hpre]
    induction pre with
    | nil => simp
    | cons a l ih =>
      have ha : a ≠ exitWord := fun h => hpre (h ▸ List.mem_cons_self _ _)
      have hl : exitWord ∉ l := fun h => hpre (List.mem_cons_of_mem _ h)
      simp only [List.cons_append]
      rw [List.takeWhile_cons_of_pos (by simpa using ha), ih hl]
  · intro h
    rw [main_eq_processLines, htw lines h]
  · rfl
  · rfl

/-! ## Lemmas on the texts that reach the launcher -/

theorem runParts_mem {σ : Type} (os : OS σ) (size : Nat) : ∀ (parts : List Str) (w : σ),
    ∀ e ∈ (runParts os size parts w).1, ∃ part ∈ parts, e.call = callOf part := by
  intro parts
  induction parts with
  | nil => intro w e he; simp [runParts] at he
  | cons part rest ih =>
    intro w e he
    rw [runParts_cons] at he
    split at he
    · simp only [List.mem_singleton] at he
      exact ⟨part, List.mem_cons_self _ _, by rw [he, dispatch_call]⟩
    · rcases List.mem_cons.mp he with h | h
      · exact ⟨part, List.mem_cons_self _ _, by rw [h, dispatch_call]⟩
      · obtain ⟨q, hq, hc⟩ := ih _ e h
        exact ⟨q, List.mem_cons_of_mem _ hq, hc⟩

theorem runCommands_mem {σ : Type} (os : OS σ) : ∀ (groups : List Str) (w : σ)
    (t : List Event) (w2 : σ), runCommands os groups w = some (t, w2) →
    ∀ e ∈ t, ∃ g ∈ groups, ∃ parts, split g andDelim = some parts ∧
      ∃ part ∈ parts, e.call = callOf part := by
  intro groups
  induction groups with
  | nil =>
    intro w t w2 h e he
    simp only [runCommands, Option.some.injEq, Prod.mk.injEq] at h
    rw [← h.1] at he
    cases he
  | cons g gs ih =>
    intro w t w2 h e he
    obtain ⟨u, us, hs, hg⟩ := runGroup_total os g w
    simp only [runCommands, hg] at h
    cases hr : runCommands os gs (runParts os (u :: us).length (u :: us) w).2 with
    | none => rw [hr] at h; cases h
    | some q =>
      rw [hr] at h
      simp only [Option.some.injEq, Prod.mk.injEq] at h
      rw [← h.1] at he
      rcases List.mem_append.mp he with he | he
      · obtain ⟨part, hp, hc⟩ := runParts_mem os _ _ _ e he
        exact ⟨g, List.mem_cons_self _ _, u :: us, hs, part, hp, hc⟩
      · obtain ⟨g2, hg2, rest⟩ := ih _ q.1 q.2 hr e he
        exact ⟨g2, List.mem_cons_of_mem _ hg2, rest⟩

theorem split_mem_clean (s d : Str) (hd : d ≠ []) (segs : List Str)
    (h : split s d = some segs) : ∀ seg ∈ segs, ∃ p, seg = cleanToken p := by
  obtain ⟨ps, _, _, h3, _, _⟩ := split_spec s d hd
  rw [h3] at h
  simp only [Option.some.injEq] at h
  intro seg hseg
  rw [← h] at hseg
  obtain ⟨p, _, hp⟩ := List.mem_map.mp hseg
  exact ⟨p, hp.symm⟩

theorem wordsAux_mem : ∀ (l cur : Str), ∀ t ∈ wordsAux l cur, ∀ c ∈ t, c ∈ cur ∨ c ∈ l := by
  intro l
  induction l with
  | nil =>
    intro cur t ht c hc
    simp only [wordsAux] at ht
    split at ht
    · cases ht
    · simp only [List.mem_singleton] at ht
      subst ht
      exact Or.inl hc
  | cons x xs ih =>
    intro cur t ht c hc
    simp only [wordsAux] at ht
    split at ht
    · split at ht
      · rcases ih [] t ht c hc with h | h
        · cases h
        · exact Or.inr (List.mem_cons_of_mem _ h)
      · rcases List.mem_cons.mp ht with rfl | ht
        · exact Or.inl hc
        · rcases ih [] t ht c hc with h | h
          · cases h
          · exact Or.inr (List.mem_cons_of_mem _ h)
    · rcases ih (cur ++ [x]) t ht c hc with h | h
      · rcases List.mem_append.mp h with h | h
        · exact Or.inl h
        · simp only [List.mem_singleton] at h
          subst h
          exact Or.inr (List.mem_cons_self _ _)
      · exact Or.inr (List.mem_cons_of_mem _ h)

theorem isspace_of_isBlank (c : Char) (h : isBlank c = true) : isspace c = true := by
  rcases (isBlank_iff c).mp h with rfl | rfl <;> decide

theorem cleanToken_id_of (t : Str) (hq : ∀ c ∈ t, isQuote c = false)
    (hb : ∀ c ∈ t, isBlank c = false) : cleanToken t = t := by
  rw [cleanToken_eq_spec]
  unfold cleanTokenSpec
  have hf : t.filter (fun c => !isQuote c) = t := by
    rw [List.filter_eq_self]
    intro c hc
    simp [hq c hc]
  have hd : t.dropWhile isBlank = t := by
    apply dropWhile_eq_self_of_head
    intro c hc
    exact hb c (List.mem_of_mem_head? hc)
  have hr : t.rdropWhile isBlank = t := by
    rw [List.rdropWhile_eq_self_iff]
    intro hne
    have := hb _ (List.getLast_mem hne)
    simp [this]
  rw [hf, hd, hr]

theorem words_clean_id (s : Str) (hq : ∀ c ∈ s, isQuote c = false) :
    ∀ t ∈ words s, cleanToken t = t := by
  intro t ht
  apply cleanToken_id_of
  · intro c hc
    rcases wordsAux_mem s [] t ht c hc with h | h
    · cases h
    · exact hq c h
  · intro c hc
    have hs := (wordsAux_spec s [] (by simp) t ht).2 c hc
    cases hbl : isBlank c with
    | false => rfl
    | true =>
      rw [isspace_of_isBlank c hbl] at hs
      cases hs

theorem callOf_texts (part : Str) :
    (∀ cmd, callOf part = Dispatch.single cmd → cmd = part)
    ∧ (∀ l r, callOf part = Dispatch.pipe l r → (∀ c ∈ l, c ∈ part) ∧ ∀ c ∈ r, c ∈ part) := by
  unfold callOf
  cases findChar '|' part with
  | none =>
    refine ⟨fun cmd h => ?_, fun l r h => ?_⟩
    · simp only [Dispatch.single.injEq] at h
      exact h.symm
    · cases h
  | some pos =>
    refine ⟨fun cmd h => ?_, fun l r h => ?_⟩
    · cases h
    · simp only [Dispatch.pipe.injEq] at h
      obtain ⟨rfl, rfl⟩ := h
      exact ⟨fun c hc => List.mem_of_mem_take hc, fun c hc => List.mem_of_mem_drop hc⟩

/-! ## Claims on the texts that reach the launcher -/

/-- C16: for every input line, every command text that `main` passes to `execSingle`
or `execPipe` is free of both quote characters, and a text passed to `execSingle`
neither starts nor ends with a space or tab; hence `cleanToken` is the identity on
every token the launcher reads from such a text.  In the line echo ">" f the quoted
operator reaches the launcher without its quotes and is scanned as a redirection: the
argument vector is [echo] and standard output is opened on f. -/
theorem quotes_never_reach_launcher {σ : Type} (os : OS σ) (input : Str) (w : σ)
    (openf : Str → OpenFlags → Int) :
    (∃ (t : List Event) (w2 : σ), runLine os input w = some (t, w2) ∧ ∀ e ∈ t,
        (∀ cmd, e.call = Dispatch.single cmd →
          (∀ c ∈ cmd, c ≠ dquote ∧ c ≠ squote)
          ∧ (∀ c, cmd.head? = some c → c ≠ ' ' ∧ c ≠ '\t')
          ∧ (∀ c, cmd.getLast? = some c → c ≠ ' ' ∧ c ≠ '\t')
          ∧ (∀ tok ∈ words cmd, cleanToken tok = tok))
        ∧ (∀ l r, e.call = Dispatch.pipe l r →
          (∀ c ∈ l, c ≠ dquote ∧ c ≠ squote) ∧ (∀ c ∈ r, c ≠ dquote ∧ c ≠ squote)
          ∧ (∀ tok ∈ words l, cleanToken tok = tok)
          ∧ (∀ tok ∈ words r, cleanToken tok = tok)))
    ∧ (runLine os ['e', 'c', 'h', 'o', ' ', dquote, '>', dquote, ' ', 'f'] w).map
        (fun r => r.1.map Event.call)
      = some [Dispatch.single ['e', 'c', 'h', 'o', ' ', '>', ' ', 'f']]
    ∧ (executeBase openf ['e', 'c', 'h', 'o', ' ', '>', ' ', 'f']).cargs
      = [some ['e', 'c', 'h', 'o'], none]
    ∧ (executeBase openf ['e', 'c', 'h', 'o', ' ', '>', ' ', 'f']).out_fd
      = openf ['f'] OpenFlags.trunc := by
  have hq : ∀ c : Char, isQuote c = false → (c ≠ dquote ∧ c ≠ squote) := by
    intro c h
    rw [← Bool.not_eq_true, isQuote_iff] at h
    tauto
  have hb : ∀ c : Char, isBlank c = false → (c ≠ ' ' ∧ c ≠ '\t') := by
    intro c h
    rw [← Bool.not_eq_true, isBlank_iff] at h
    tauto
  refine ⟨?_, ?_, rfl, rfl⟩
  · obtain ⟨⟨t, w2⟩, hrun⟩ := runLine_total os input w
    refine ⟨t, w2, hrun, ?_⟩
    intro e he
    unfold runLine at hrun
    cases hs : split input semiDelim with
    | none => rw [hs] at hrun; cases hrun
    | some groups =>
      rw [hs] at hrun
      obtain ⟨g, _, parts, hparts, part, hpart, hcall⟩ :=
        runCommands_mem os groups w t w2 hrun e he
      obtain ⟨p, rfl⟩ := split_mem_clean g andDelim (by decide) parts hparts part hpart
      have hnq : ∀ c ∈ cleanToken p, isQuote c = false := by
        intro c hc
        rw [cleanToken_eq_spec] at hc
        exact cleanTokenSpec_noquote p c hc
      obtain ⟨hsingle, hpipe⟩ := callOf_texts (cleanToken p)
      refine ⟨?_, ?_⟩
      · intro cmd hcmd
        rw [hcall] at hcmd
        have := hsingle cmd hcmd
        subst this
        refine ⟨fun c hc => hq c (hnq c hc), ?_, ?_, words_clean_id _ hnq⟩
        · intro c hc
          rw [cleanToken_eq_spec] at hc
          exact hb c (cleanTokenSpec_head p c hc)
        · intro c hc
          rw [cleanToken_eq_spec] at hc
          exact hb c (cleanTokenSpec_last p c hc)
      · intro l r hlr
        rw [hcall] at hlr
        obtain ⟨hl, hr⟩ := hpipe l r hlr
        exact ⟨fun c hc => hq c (hnq c (hl c hc)), fun c hc => hq c (hnq c (hr c hc)),
          words_clean_id l (fun c hc => hnq c (hl c hc)),
          words_clean_id r (fun c hc => hnq c (hr c hc))⟩
  · have h1 : split ['e', 'c', 'h', 'o', ' ', dquote, '>', dquote, ' ', 'f'] semiDelim
        = some [['e', 'c', 'h', 'o', ' ', '>', ' ', 'f']] := by decide
    have h2 : split ['e', 'c', 'h', 'o', ' ', '>', ' ', 'f'] andDelim
        = some [['e', 'c', 'h', 'o', ' ', '>', ' ', 'f']] := by decide
    simp only [runLine, h1, runCommands, runGroup_single os _ _ _ h2, Option.map_some',
      List.map_cons, List.map_nil, List.cons_append, List.nil_append, dispatch_call]
    rfl

theorem redirs_op_operand (t path : Str) (ss : List Str) (h : isRedirOp t = true) :
    redirs (t :: path :: ss) = (t, some path) :: redirs ss := by
  simp [redirs, h]

theorem argTokens_op_operand (t path : Str) (ss : List Str) (h : isRedirOp t = true) :
    argTokens (t :: path :: ss) = argTokens ss := by
  simp [argTokens, h]

theorem redirs_dangling (op : Str) : ∀ (n : Nat) (toks : List Str), toks.length ≤ n →
    (redirs toks).getLast? = some (op, none) →
    isRedirOp op = true ∧ ∃ front, toks = front ++ [op] ∧ argTokens front = argTokens toks := by
  intro n
  induction n with
  | zero =>
    intro toks hlen h
    have : toks = [] := List.length_eq_zero.mp (Nat.le_zero.mp hlen)
    subst this
    simp [redirs] at h
  | succ n ih =>
    intro toks hlen h
    cases toks with
    | nil => simp [redirs] at h
    | cons t ss =>
      cases hop : isRedirOp t with
      | false =>
        rw [redirs_arg t ss hop] at h
        obtain ⟨h1, front, h2, h3⟩ := ih ss (by simpa using hlen) h
        refine ⟨h1, t :: front, by rw [h2]; rfl, ?_⟩
        rw [argTokens_arg t front hop, argTokens_arg t ss hop, h3]
      | true =>
        cases ss with
        | nil =>
          simp only [redirs, hop, if_true, List.getLast?_singleton, Option.some.injEq,
            Prod.mk.injEq, and_true] at h
          subst h
          exact ⟨hop, [], rfl, by simp [argTokens, hop]⟩
        | cons path ss1 =>
          rw [redirs_op_operand t path ss1 hop] at h
          cases hr : redirs ss1 with
          | nil =>
            rw [hr] at h
            simp at h
          | cons a rs =>
            rw [hr, List.getLast?_cons_cons, ← hr] at h
            obtain ⟨h1, front, h2, h3⟩ := ih ss1
              (by simp only [List.length_cons] at hlen; omega) h
            refine ⟨h1, t :: path :: front, by rw [h2]; rfl, ?_⟩
            rw [argTokens_op_operand t path front hop, argTokens_op_operand t path ss1 hop, h3]

theorem filter_getLast_of_last {α : Type} (q : α → Bool) (l : List α) (a : α)
    (h : l.getLast? = some a) (ha : q a = true) : (l.filter q).getLast? = some a := by
  obtain ⟨ys, rfl⟩ := List.getLast?_eq_some_iff.mp h
  rw [List.filter_append]
  simp [List.filter_cons, ha]

/-- C17: for every command text whose last token is a redirection operator that the
scan reads as an operator (it is not the operand of the operator before it), the inner
extraction fails and the token keeps the operator text, so the descriptor of that
stream is the one `open` returns for the operator's own text with the operator's
flags; the argument vector is the one of the text without that last token. -/
theorem dangling_redirection_operator (openf : Str → OpenFlags → Int) (cmd op : Str)
    (h : (redirs (words cmd)).getLast? = some (op, none)) :
    isRedirOp op = true
    ∧ ((op = ['>'] ∨ op = ['1', '>']) →
        (executeBase openf cmd).out_fd = openf op OpenFlags.trunc)
    ∧ ((op = ['>', '>'] ∨ op = ['1', '>', '>']) →
        (executeBase openf cmd).out_fd = openf op OpenFlags.append)
    ∧ (op = ['2', '>'] → (executeBase openf cmd).err_fd = openf op OpenFlags.trunc)
    ∧ (op = ['2', '>', '>'] → (executeBase openf cmd).err_fd = openf op OpenFlags.append)
    ∧ (∃ front, words cmd = front ++ [op] ∧
        (executeBase openf cmd).cargs = buildArgs ((argTokens front).map cleanToken) ∧
        ∀ cmd0, words cmd0 = front →
          (executeBase openf cmd0).cargs = (executeBase openf cmd).cargs) := by
  obtain ⟨hop, front, hfront, hargs⟩ := redirs_dangling op (words cmd).length (words cmd)
    (Nat.le_refl _) h
  obtain ⟨hc, hout, herr⟩ := executeBase_fields openf cmd
  have outCase : isOutOp op = true →
      (executeBase openf cmd).out_fd = openf op (flagsOf op) := by
    intro ho
    rw [hout, resolve, filter_getLast_of_last _ _ _ h ho]
  have errCase : isErrOp op = true →
      (executeBase openf cmd).err_fd = openf op (flagsOf op) := by
    intro he
    rw [herr, resolve, filter_getLast_of_last _ _ _ h he]
  refine ⟨hop, ?_, ?_, ?_, ?_, front, hfront, ?_, ?_⟩
  · intro hl
    rw [outCase (by rcases hl with rfl | rfl <;> decide)]
    rcases hl with rfl | rfl <;> rfl
  · intro hl
    rw [outCase (by rcases hl with rfl | rfl <;> decide)]
    rcases hl with rfl | rfl <;> rfl
  · intro hl
    rw [errCase (by subst hl; decide), hl]
    rfl
  · intro hl
    rw [errCase (by subst hl; decide), hl]
    rfl
  · rw [hc, hargs]
  · intro cmd0 h0
    rw [(executeBase_fields openf cmd0).1, hc, h0, hargs]

theorem dangling_redirection_operator_witness :
    (redirs (words ['e', 'c', 'h', 'o', ' ', 'h', 'i', ' ', '>'])).getLast? = some (['>'], none)
    ∧ (executeBase openThree ['e', 'c', 'h', 'o', ' ', 'h', 'i', ' ', '>']).out_fd
        = openThree ['>'] OpenFlags.trunc
    ∧ (executeBase openThree ['e', 'c', 'h', 'o', ' ', 'h', 'i', ' ', '>']).cargs
        = [some ['e', 'c', 'h', 'o'], some ['h', 'i'], none] :=
  ⟨by decide,
    (dangling_redirection_operator openThree ['e', 'c', 'h', 'o', ' ', 'h', 'i', ' ', '>']
      ['>'] (by decide)).2.1 (Or.inl rfl),
    by decide⟩

/-! ## Termination of `split` -/

theorem find_some_bounds (s d : Str) (prev pos : Nat) (h : find s d prev = some pos) :
    prev ≤ pos ∧ pos + d.length ≤ s.length := by
  unfold find at h
  split at h
  · rename_i hle
    obtain ⟨p, t, h1, h2, _⟩ := findAt_some d _ _ _ h
    have := congrArg List.length h1
    simp only [List.length_drop, List.length_append] at this
    omega
  · cases h

theorem find_empty (s : Str) (prev : Nat) (h : prev ≤ s.length) : find s [] prev = some prev := by
  unfold find
  rw [if_pos h]
  cases s.drop prev <;> simp [findAt, List.isPrefixOf]

theorem splitLoop_empty (s : Str) : ∀ (fuel prev : Nat) (acc : List Str), prev ≤ s.length →
    splitLoop s [] fuel prev acc = none := by
  intro fuel
  induction fuel with
  | zero => intro prev acc _; rfl
  | succ f ih =>
    intro prev acc h
    simp only [splitLoop, find_empty s prev h, List.length_nil, Nat.add_zero]
    exact ih prev _ h

theorem splitLoop_mono (s d : Str) : ∀ (f : Nat) (prev : Nat) (acc r : List Str),
    splitLoop s d f prev acc = some r → ∀ g, f ≤ g → splitLoop s d g prev acc = some r := by
  intro f
  induction f with
  | zero => intro prev acc r h; cases h
  | succ f ih =>
    intro prev acc r h g hg
    cases g with
    | zero => omega
    | succ g =>
      simp only [splitLoop] at h ⊢
      cases hf : find s d prev with
      | none => rw [hf] at h; exact h
      | some pos =>
        rw [hf] at h
        exact ih _ _ r h g (by omega)

theorem splitLoop_tight (s d : Str) (hd : d ≠ []) : ∀ (fuel prev : Nat) (acc : List Str),
    prev ≤ s.length → (s.length - prev) / d.length < fuel →
    ∃ r, splitLoop s d fuel prev acc = some r ∧ acc.length + 1 ≤ r.length ∧
      r.length ≤ acc.length + (s.length - prev) / d.length + 1 := by
  have hdl : 0 < d.length := List.length_pos.mpr hd
  intro fuel
  induction fuel with
  | zero => intro prev acc _ h; exact absurd h (Nat.not_lt_zero _)
  | succ f ih =>
    intro prev acc hprev hfuel
    simp only [splitLoop]
    cases hf : find s d prev with
    | none => exact ⟨_, rfl, by simp, by simp⟩
    | some pos =>
      obtain ⟨h1, h2⟩ := find_some_bounds s d prev pos hf
      have hdiv : (s.length - prev) / d.length
          = (s.length - prev - d.length) / d.length + 1 := by
        rw [Nat.div_eq_sub_div hdl (by omega)]
      have hle : (s.length - (pos + d.length)) / d.length
          ≤ (s.length - prev - d.length) / d.length :=
        Nat.div_le_div_right (by omega)
      have hlt : (s.length - (pos + d.length)) / d.length < f := by
        rw [hdiv] at hfuel
        exact Nat.lt_of_le_of_lt hle (Nat.lt_of_succ_lt_succ hfuel)
      obtain ⟨r, hr, hr1, hr2⟩ := ih (pos + d.length)
        (acc ++ [cleanToken (substr s prev (pos - prev))]) h2 hlt
      simp only [List.length_append, List.length_singleton] at hr1 hr2
      refine ⟨r, hr, by omega, ?_⟩
      rw [hdiv]
      have h3 : acc.length + 1 + (s.length - (pos + d.length)) / d.length + 1
          ≤ acc.length + ((s.length - prev - d.length) / d.length + 1) + 1 := by
        have := Nat.add_le_add_left hle (acc.length + 1)
        omega
      exact Nat.le_trans hr2 h3

/-- C18: for every string `s` and non-empty delimiter `d` the loop of `split` ends:
each match moves the scan position forward by at least the length of `d`, so
`|s| / |d| + 1` tests of the loop condition are enough whatever larger budget is
given, and the result has between 1 and `|s| / |d| + 1` elements.  With the empty
delimiter every search succeeds at the scan position itself, the position never
moves, and the loop does not end within any budget. -/
theorem split_terminates :
    (∀ s d : Str, d ≠ [] → ∃ segs, split s d = some segs ∧ 1 ≤ segs.length ∧
        segs.length ≤ s.length / d.length + 1 ∧
        ∀ fuel, s.length / d.length + 1 ≤ fuel → splitLoop s d fuel 0 [] = some segs)
    ∧ (∀ (s d : Str) (prev pos : Nat), d ≠ [] → find s d prev = some pos →
        prev + d.length ≤ pos + d.length ∧ prev < pos + d.length ∧
        pos + d.length ≤ s.length)
    ∧ (∀ (s : Str) (prev : Nat), prev ≤ s.length →
        find s [] prev = some prev ∧ prev + ([] : Str).length = prev)
    ∧ (∀ (s : Str) (fuel : Nat), splitLoop s [] fuel 0 [] = none)
    ∧ (∀ s : Str, split s [] = none) := by
  refine ⟨?_, ?_, ?_, ?_, ?_⟩
  · intro s d hd
    have hdl : 0 < d.length := List.length_pos.mpr hd
    obtain ⟨r, hr, h1, h2⟩ := splitLoop_tight s d hd (s.length / d.length + 1) 0 []
      (Nat.zero_le _) (by simp)
    have hfuel : s.length / d.length + 1 ≤ s.length + 1 :=
      Nat.succ_le_succ (Nat.div_le_self _ _)
    refine ⟨r, splitLoop_mono s d _ 0 [] r hr _ hfuel, by simpa using h1,
      by simpa using h2, ?_⟩
    intro fuel hf
    exact splitLoop_mono s d _ 0 [] r hr fuel hf
  · intro s d prev pos hd h
    have hdl : 0 < d.length := List.length_pos.mpr hd
    obtain ⟨h1, h2⟩ := find_some_bounds s d prev pos h
    omega
  · intro s prev h
    exact ⟨find_empty s prev h, rfl⟩
  · intro s fuel
    exact splitLoop_empty s fuel 0 [] (Nat.zero_le _)
  · intro s
    exact splitLoop_empty s _ 0 [] (Nat.zero_le _)

/-! ## The status of the last unit of a chain -/

end SimpleShell
